import Mathlib

/-!
Verification development for the resonance-structure generation module
(`rmgpy/molecule/resonance.py`).

The module is embedded shallowly:

* A molecular graph is a `MolState`: per-atom radical counts, lone-pair
  counts and formal charges, and per-bond orders.  Atoms and bonds are
  referred to by position.  Bond orders are stored doubled so that all
  arithmetic stays in `Int`: a single bond is `2`, a double bond `4`, a
  triple bond `6`, and the delocalized (benzene, `1.5`) order is `3`.
  Incrementing a bond order by one in the source adds `2` here.
* External collaborators (graph equivalence tests, the path finder, atom
  type revalidation, ring perception, the binary ILP solver, the per-atom
  charge formula used by `updateCharge`) are parameters of the embedded
  functions.  Atom-type revalidation is a `MolState → Bool`; in the source
  a failed revalidation raises `AtomTypeError`, which the embedding
  represents with `Except Unit`.
* The enumeration engine's `while index < len(molList)` worklist is given
  an explicit fuel argument; all theorems hold for every fuel value.
-/

set_option maxHeartbeats 1000000

namespace Resonance

/-- Update the element at position `i` of a list, leaving the list
unchanged when `i` is out of range.  This models an in-place mutation of
one atom or bond attribute. -/
def updAt {α : Type} : List α → Nat → (α → α) → List α
  | [], _, _ => []
  | x :: xs, 0, f => f x :: xs
  | x :: xs, n + 1, f => x :: updAt xs n f

theorem length_updAt {α : Type} (l : List α) (i : Nat) (f : α → α) :
    (updAt l i f).length = l.length := by
  induction l generalizing i with
  | nil => rfl
  | cons x xs ih =>
    cases i with
    | zero => rfl
    | succ n => simp [updAt, ih]

theorem updAt_updAt_same {α : Type} (l : List α) (i : Nat) (f g : α → α) :
    updAt (updAt l i f) i g = updAt l i (fun x => g (f x)) := by
  induction l generalizing i with
  | nil => rfl
  | cons x xs ih =>
    cases i with
    | zero => rfl
    | succ n => simp [updAt, ih]

theorem updAt_comm {α : Type} (l : List α) (i j : Nat) (f g : α → α)
    (h : i ≠ j) : updAt (updAt l i f) j g = updAt (updAt l j g) i f := by
  induction l generalizing i j with
  | nil => rfl
  | cons x xs ih =>
    cases i with
    | zero =>
      cases j with
      | zero => exact absurd rfl h
      | succ m => rfl
    | succ n =>
      cases j with
      | zero => rfl
      | succ m =>
        simp only [updAt, List.cons.injEq, true_and]
        exact ih n m (by omega)

theorem updAt_congr {α : Type} (l : List α) (i : Nat) (f g : α → α)
    (h : ∀ x, f x = g x) : updAt l i f = updAt l i g := by
  induction l generalizing i with
  | nil => rfl
  | cons x xs ih =>
    cases i with
    | zero => simp [updAt, h]
    | succ n => simp [updAt, ih]

theorem updAt_id {α : Type} (l : List α) (i : Nat) :
    updAt l i (fun x => x) = l := by
  induction l generalizing i with
  | nil => rfl
  | cons x xs ih =>
    cases i with
    | zero => rfl
    | succ n => simp [updAt, ih]

theorem getD_updAt {α : Type} (l : List α) (i j : Nat) (f : α → α) (d : α) :
    (updAt l i f).getD j d =
      if i = j ∧ j < l.length then f (l.getD j d) else l.getD j d := by
  induction l generalizing i j with
  | nil => simp [updAt]
  | cons x xs ih =>
    cases i with
    | zero =>
      cases j with
      | zero => simp [updAt]
      | succ m => simp [updAt]
    | succ n =>
      cases j with
      | zero => simp [updAt]
      | succ m =>
        simp only [updAt, List.getD_cons_succ, List.length_cons, ih]
        by_cases hnm : n = m
        · subst hnm
          by_cases hm : n < xs.length
          · have hm2 : n + 1 < xs.length + 1 := by omega
            simp [hm, hm2]
          · have hm2 : ¬ (n + 1 < xs.length + 1) := by omega
            simp [hm, hm2]
        · have hnm2 : ¬ (n + 1 = m + 1) := by omega
          simp [hnm, hnm2]

theorem updAt_getD_self {α : Type} (l : List α) (i : Nat) (d : α) :
    updAt l i (fun _ => l.getD i d) = l := by
  induction l generalizing i with
  | nil => rfl
  | cons x xs ih =>
    cases i with
    | zero => rfl
    | succ n =>
      simp only [updAt, List.getD_cons_succ, List.cons.injEq, true_and]
      exact ih n

theorem updAt_overwrite {α : Type} (l : List α) (i : Nat) (a b : α) :
    updAt (updAt l i (fun _ => a)) i (fun _ => b) = updAt l i (fun _ => b) := by
  rw [updAt_updAt_same]

/-- Two lists of the same length that agree on `getD` at every position
are equal. -/
theorem ext_getD {α : Type} (d : α) (l₁ l₂ : List α)
    (hlen : l₁.length = l₂.length)
    (h : ∀ j, l₁.getD j d = l₂.getD j d) : l₁ = l₂ := by
  induction l₁ generalizing l₂ with
  | nil => cases l₂ with
    | nil => rfl
    | cons y ys => simp at hlen
  | cons x xs ih =>
    cases l₂ with
    | nil => simp at hlen
    | cons y ys =>
      have h0 := h 0
      simp only [List.getD_cons_zero] at h0
      subst h0
      have := ih ys (by simpa using hlen) (fun j => by simpa using h (j + 1))
      rw [this]

/-- Pattern of a mutation followed by its exact inverse: update at `i`,
update at `j`, then undo the update at `i`, then undo the update at `j`.
The hypotheses say that the undo functions invert the mutations, also
when `i` and `j` collide. -/
theorem updAt_four_cancel {α : Type} (l : List α) (i j : Nat)
    (f g f' g' : α → α)
    (hf : ∀ x, f' (f x) = x) (hg : ∀ x, g' (g x) = x)
    (hmix : ∀ x, g' (f' (g (f x))) = x) :
    updAt (updAt (updAt (updAt l i f) j g) i f') j g' = l := by
  by_cases hij : i = j
  · subst hij
    rw [updAt_updAt_same, updAt_updAt_same, updAt_updAt_same]
    rw [updAt_congr _ _ _ (fun x => x) hmix, updAt_id]
  · rw [updAt_comm (updAt l i f) j i g f' (fun h => hij h.symm)]
    rw [updAt_updAt_same l i f f']
    rw [updAt_congr l i _ (fun x => x) hf, updAt_id]
    rw [updAt_updAt_same, updAt_congr _ _ _ (fun x => x) hg, updAt_id]

/--
State of a molecular graph: one entry per atom in `radical`, `lonePairs`
and `charge`, and one entry per bond in `order`.  Bond orders are doubled
(`2` single, `4` double, `6` triple, `3` benzene) so that the `1.5`
delocalized order of the source is the integer `3`.
-/
structure MolState where
  radical : List Int
  lonePairs : List Int
  charge : List Int
  order : List Int
deriving DecidableEq, Repr

/-- Endpoints of each bond, fixed connectivity of the graph. -/
abbrev BondEnds : Type := List (Nat × Nat)

/-- The per-atom charge formula used by `Atom.updateCharge`, an external
collaborator: from the atom index, its radical count, its lone pair count
and the (doubled) sum of its incident bond orders, compute the formal
charge. -/
abbrev ChargeFn : Type := Nat → Int → Int → Int → Int

/-- Doubled sum of the orders of all bonds incident to atom `i`. -/
def orderSum (ends : BondEnds) (order : List Int) (i : Nat) : Int :=
  ((List.zip ends order).filter
    (fun p => p.1.1 == i || p.1.2 == i)).foldl (fun acc p => acc + p.2) 0

def decrementRadical (st : MolState) (i : Nat) : MolState :=
  { st with radical := updAt st.radical i (fun x => x - 1) }

def incrementRadical (st : MolState) (i : Nat) : MolState :=
  { st with radical := updAt st.radical i (fun x => x + 1) }

def decrementLonePairs (st : MolState) (i : Nat) : MolState :=
  { st with lonePairs := updAt st.lonePairs i (fun x => x - 1) }

def incrementLonePairs (st : MolState) (i : Nat) : MolState :=
  { st with lonePairs := updAt st.lonePairs i (fun x => x + 1) }

/-- Source `Bond.incrementOrder`: one bond-order unit is `2` in the doubled
encoding. -/
def incrementOrder (st : MolState) (j : Nat) : MolState :=
  { st with order := updAt st.order j (fun x => x + 2) }

def decrementOrder (st : MolState) (j : Nat) : MolState :=
  { st with order := updAt st.order j (fun x => x - 2) }

def setOrder (st : MolState) (j : Nat) (v : Int) : MolState :=
  { st with order := updAt st.order j (fun _ => v) }

/-- Source `Atom.updateCharge`: recompute the charge of atom `i` from its current
radical count, lone pair count, and incident bond orders. -/
def updateCharge (cf : ChargeFn) (ends : BondEnds) (st : MolState) (i : Nat) :
    MolState :=
  { st with charge := updAt st.charge i (fun _ =>
      cf i (st.radical.getD i 0) (st.lonePairs.getD i 0)
        (orderSum ends st.order i)) }

/-- Source `Molecule.isRadical`. -/
def isRadical (st : MolState) : Bool :=
  st.radical.any (fun r => 0 < r)

/-- A graph is charge-consistent when every atom's stored formal charge
agrees with the charge formula; `updateCharge` maintains exactly this.
This is the electron-bookkeeping invariant of the data model. -/
def chargeConsistent (cf : ChargeFn) (ends : BondEnds) (st : MolState) : Prop :=
  ∀ i, st.charge.getD i 0 =
    cf i (st.radical.getD i 0) (st.lonePairs.getD i 0)
      (orderSum ends st.order i)

/-!
The enumeration engine `_generateResonanceStructures`.  It only touches
structures through the move-family functions and the two equivalence
tests, so it is embedded generically over the structure type `M`; the
`isIsomorphic` and `isIdentical` collaborator methods are parameters.
-/

/-- The equivalence test the dedup scan applies to the pair
`(mol, newMol)`: the source's
`if not keepIsomorphic and mol.isIsomorphic(newMol): break
 elif keepIsomorphic and mol.isIdentical(newMol): break`. -/
def activeEquivalence {M : Type} (keepIsomorphic : Bool)
    (isIsomorphic isIdentical : M → M → Bool) (mol newMol : M) : Bool :=
  if keepIsomorphic then isIdentical mol newMol else isIsomorphic mol newMol

/-- One candidate of the engine's inner loop: linearly scan the entire
current list for an equivalent member (first match wins) and append the
candidate only if none is found. -/
def appendIfUnique {M : Type} (keepIsomorphic : Bool)
    (isIsomorphic isIdentical : M → M → Bool) (molList : List M)
    (newMol : M) : List M :=
  if molList.any (fun mol =>
      activeEquivalence keepIsomorphic isIsomorphic isIdentical mol newMol)
  then molList
  else molList ++ [newMol]

/-- The worklist of `_generateResonanceStructures`: while the index has
not reached the end of the growing list, apply every move family to the
structure at the index, dedup-append each candidate, and advance.  The
source's unbounded `while` is driven by `fuel`; exhausted fuel returns
the list accumulated so far. -/
def resonanceWorklist {M : Type} (isIsomorphic isIdentical : M → M → Bool)
    (methodList : List (M → List M)) (keepIsomorphic : Bool) :
    Nat → List M → Nat → List M
  | 0, molList, _ => molList
  | fuel + 1, molList, index =>
    if h : index < molList.length then
      let molecule := molList.get ⟨index, h⟩
      let newMolList :=
        methodList.foldl (fun acc method => acc ++ method molecule) []
      let molList2 :=
        newMolList.foldl
          (appendIfUnique keepIsomorphic isIsomorphic isIdentical) molList
      resonanceWorklist isIsomorphic isIdentical methodList keepIsomorphic
        fuel molList2 (index + 1)
    else molList

/-- Source `_generateResonanceStructures(molList, methodList, keepIsomorphic,
copy)`.  With `copy=True` the source works on a shallow copy of the input
list; values are immutable here, so both flag values compute the same
list. -/
def generateResonanceStructuresEngine {M : Type}
    (isIsomorphic isIdentical : M → M → Bool)
    (molList : List M) (methodList : List (M → List M))
    (keepIsomorphic : Bool) (copy : Bool) (fuel : Nat) : List M :=
  let molList := if copy then molList.take molList.length else molList
  resonanceWorklist isIsomorphic isIdentical methodList keepIsomorphic
    fuel molList 0

/-- The radical monocyclic aromatic branch of
`generateResonanceStructures` (lines 181-187).  On line 183 the source
reads `_generateResonanceStructures(newMolList, [generateKekuleStructure]),
keepIsomorphic`: the `keepIsomorphic` flag sits outside the closing
parenthesis of the call (the line is a two-element tuple expression), so
the Kekule enumeration runs with the engine's default mode,
`keepIsomorphic=False`. -/
def radicalMonoAromaticBranch {M : Type}
    (isIsomorphic isIdentical : M → M → Bool)
    (kekule adjacent : M → List M) (keepIsomorphic : Bool) (fuel : Nat)
    (newMolList : List M) : List M :=
  let i := newMolList.length
  let l1 := generateResonanceStructuresEngine isIsomorphic isIdentical
    newMolList [kekule] false false fuel
  let j := l1.length
  let l2 := generateResonanceStructuresEngine isIsomorphic isIdentical
    l1 [adjacent] keepIsomorphic false fuel
  l2.take i ++ l2.drop j

/-!
Move appliers.  Each applier walks the atoms of the shared working graph,
asks the external path finder for the eligible delocalization paths of
each atom, and for each path mutates the shared graph in place, deep
copies it into a candidate, undoes the mutation, and calls
`updateAtomTypes` on the candidate.  `updateAtomTypes` is external; it
either succeeds (the candidate keeps its new atom types) or raises
`AtomTypeError` — represented by the Boolean parameter `validate` and an
`Except Unit` result.  The appliers call it without a surrounding
`try/except`, so a `false` verdict propagates as an error.  Every applier
returns the final state of the shared working graph together with the
`Except` outcome, mirroring the fact that the caller's molecule object
survives an escaping exception.
-/

/-- A path for the allyl radical shift:
`atom1, atom2, atom3, bond12, bond23`. -/
structure AdjPath where
  atom1 : Nat
  atom2 : Nat
  atom3 : Nat
  bond12 : Nat
  bond23 : Nat
deriving DecidableEq, Repr

/-- The in-place mutation of `generateAdjacentResonanceStructures`:
`atom1.decrementRadical(); atom3.incrementRadical();
bond12.incrementOrder(); bond23.decrementOrder()`. -/
def adjacentMutation (p : AdjPath) (st : MolState) : MolState :=
  decrementOrder
    (incrementOrder (incrementRadical (decrementRadical st p.atom1) p.atom3)
      p.bond12) p.bond23

/-- The restore step of `generateAdjacentResonanceStructures`:
`atom1.incrementRadical(); atom3.decrementRadical();
bond12.decrementOrder(); bond23.incrementOrder()`. -/
def adjacentRestore (p : AdjPath) (st : MolState) : MolState :=
  incrementOrder
    (decrementOrder (decrementRadical (incrementRadical st p.atom1) p.atom3)
      p.bond12) p.bond23

/-- Process the paths of one atom in
`generateAdjacentResonanceStructures`: mutate, snapshot, restore,
revalidate the snapshot (an error propagates), append. -/
def adjacentProcessPaths (validate : MolState → Bool) :
    List AdjPath → MolState → List MolState →
    MolState × Except Unit (List MolState)
  | [], st, isomers => (st, Except.ok isomers)
  | p :: rest, st, isomers =>
    let mutated := adjacentMutation p st
    let isomer := mutated
    let st2 := adjacentRestore p mutated
    if validate isomer then
      adjacentProcessPaths validate rest st2 (isomers ++ [isomer])
    else (st2, Except.error ())

def adjacentScanAtoms (validate : MolState → Bool)
    (findPaths : MolState → Nat → List AdjPath) :
    List Nat → MolState → List MolState →
    MolState × Except Unit (List MolState)
  | [], st, isomers => (st, Except.ok isomers)
  | i :: rest, st, isomers =>
    match adjacentProcessPaths validate (findPaths st i) st isomers with
    | (st2, Except.ok isomers2) =>
      adjacentScanAtoms validate findPaths rest st2 isomers2
    | (st2, Except.error e) => (st2, Except.error e)

/-- Source `generateAdjacentResonanceStructures(mol)`: only radical molecules
are explored; the path finder is the external
`pathfinder.findAllDelocalizationPaths`. -/
def generateAdjacentResonanceStructures (validate : MolState → Bool)
    (findPaths : MolState → Nat → List AdjPath) (mol : MolState) :
    MolState × Except Unit (List MolState) :=
  if isRadical mol then
    adjacentScanAtoms validate findPaths (List.range mol.radical.length)
      mol []
  else (mol, Except.ok [])

/-- A path for the lone pair / radical shift: `atom1, atom2`. -/
structure LonePairPath where
  atom1 : Nat
  atom2 : Nat
deriving DecidableEq, Repr

/-- The in-place mutation of
`generateLonePairRadicalResonanceStructures`: `atom1.decrementRadical();
atom1.incrementLonePairs(); atom1.updateCharge(); atom2.incrementRadical();
atom2.decrementLonePairs(); atom2.updateCharge()`. -/
def lonePairMutation (cf : ChargeFn) (ends : BondEnds) (p : LonePairPath)
    (st : MolState) : MolState :=
  updateCharge cf ends
    (decrementLonePairs
      (incrementRadical
        (updateCharge cf ends
          (incrementLonePairs (decrementRadical st p.atom1) p.atom1)
          p.atom1)
        p.atom2)
      p.atom2)
    p.atom2

/-- The restore step of `generateLonePairRadicalResonanceStructures`:
the same six calls with increment and decrement exchanged. -/
def lonePairRestore (cf : ChargeFn) (ends : BondEnds) (p : LonePairPath)
    (st : MolState) : MolState :=
  updateCharge cf ends
    (incrementLonePairs
      (decrementRadical
        (updateCharge cf ends
          (decrementLonePairs (incrementRadical st p.atom1) p.atom1)
          p.atom1)
        p.atom2)
      p.atom2)
    p.atom2

def lonePairProcessPaths (cf : ChargeFn) (ends : BondEnds)
    (validate : MolState → Bool) :
    List LonePairPath → MolState → List MolState →
    MolState × Except Unit (List MolState)
  | [], st, isomers => (st, Except.ok isomers)
  | p :: rest, st, isomers =>
    let mutated := lonePairMutation cf ends p st
    let isomer := mutated
    let st2 := lonePairRestore cf ends p mutated
    if validate isomer then
      lonePairProcessPaths cf ends validate rest st2 (isomers ++ [isomer])
    else (st2, Except.error ())

def lonePairScanAtoms (cf : ChargeFn) (ends : BondEnds)
    (validate : MolState → Bool)
    (findPaths : MolState → Nat → List LonePairPath) :
    List Nat → MolState → List MolState →
    MolState × Except Unit (List MolState)
  | [], st, isomers => (st, Except.ok isomers)
  | i :: rest, st, isomers =>
    match lonePairProcessPaths cf ends validate (findPaths st i) st isomers
      with
    | (st2, Except.ok isomers2) =>
      lonePairScanAtoms cf ends validate findPaths rest st2 isomers2
    | (st2, Except.error e) => (st2, Except.error e)

/-- Source `generateLonePairRadicalResonanceStructures(mol)`. -/
def generateLonePairRadicalResonanceStructures (cf : ChargeFn)
    (ends : BondEnds) (validate : MolState → Bool)
    (findPaths : MolState → Nat → List LonePairPath) (mol : MolState) :
    MolState × Except Unit (List MolState) :=
  if isRadical mol then
    lonePairScanAtoms cf ends validate findPaths
      (List.range mol.radical.length) mol []
  else (mol, Except.ok [])

/-- A path for the N5dd / N5ts shift:
`atom1, atom2, atom3, bond12, bond13, direction`. -/
structure N5Path where
  atom1 : Nat
  atom2 : Nat
  atom3 : Nat
  bond12 : Nat
  bond13 : Nat
  direction : Nat
deriving DecidableEq, Repr

/-- The in-place mutation the source applies in the `direction == 1`
block (from N5dd to N5ts): `bond12.decrementOrder();
bond13.incrementOrder(); atom2.incrementLonePairs();
atom3.decrementLonePairs(); atom1.updateCharge(); atom2.updateCharge();
atom3.updateCharge()`. -/
def n5Direction1Mutation (cf : ChargeFn) (ends : BondEnds) (p : N5Path)
    (st : MolState) : MolState :=
  let st1 := incrementOrder (decrementOrder st p.bond12) p.bond13
  let st2 := decrementLonePairs (incrementLonePairs st1 p.atom2) p.atom3
  updateCharge cf ends
    (updateCharge cf ends (updateCharge cf ends st2 p.atom1) p.atom2)
    p.atom3

/-- The in-place mutation the source applies in the `direction == 2`
block (commented as the shift from N5ts to N5dd): the block's statements
are textually identical to the `direction == 1` block —
`bond12.decrementOrder(); bond13.incrementOrder();
atom2.incrementLonePairs(); atom3.decrementLonePairs()` followed by the
three `updateCharge` calls. -/
def n5Direction2Mutation (cf : ChargeFn) (ends : BondEnds) (p : N5Path)
    (st : MolState) : MolState :=
  let st1 := incrementOrder (decrementOrder st p.bond12) p.bond13
  let st2 := decrementLonePairs (incrementLonePairs st1 p.atom2) p.atom3
  updateCharge cf ends
    (updateCharge cf ends (updateCharge cf ends st2 p.atom1) p.atom2)
    p.atom3

/-- The restore step shared by both direction blocks:
`bond12.incrementOrder(); bond13.decrementOrder();
atom2.decrementLonePairs(); atom3.incrementLonePairs()` followed by the
three `updateCharge` calls. -/
def n5Restore (cf : ChargeFn) (ends : BondEnds) (p : N5Path)
    (st : MolState) : MolState :=
  let st1 := decrementOrder (incrementOrder st p.bond12) p.bond13
  let st2 := incrementLonePairs (decrementLonePairs st1 p.atom2) p.atom3
  updateCharge cf ends
    (updateCharge cf ends (updateCharge cf ends st2 p.atom1) p.atom2)
    p.atom3

/-- Modelled from the spec: the direction-B mutation the specification
describes for `generateN5dd_N5tsResonanceStructures` — "the symmetric
reverse" of direction A, that is `bond12` order `+1`, `bond13` order
`-1`, `atom2.lonePairs -1`, `atom3.lonePairs +1`, with charges recomputed
on all three atoms. -/
def n5SpecDirectionBMutation (cf : ChargeFn) (ends : BondEnds) (p : N5Path)
    (st : MolState) : MolState :=
  let st1 := decrementOrder (incrementOrder st p.bond12) p.bond13
  let st2 := incrementLonePairs (decrementLonePairs st1 p.atom2) p.atom3
  updateCharge cf ends
    (updateCharge cf ends (updateCharge cf ends st2 p.atom1) p.atom2)
    p.atom3

/-- Process one N5 path: the source has two consecutive `if` blocks, one
for `direction == 1` and one for `direction == 2`; each mutates,
snapshots, restores and revalidates the snapshot. -/
def n5ProcessPath (cf : ChargeFn) (ends : BondEnds)
    (validate : MolState → Bool) (p : N5Path) (st : MolState)
    (isomers : List MolState) : MolState × Except Unit (List MolState) :=
  let step1 : MolState × Except Unit (List MolState) :=
    if p.direction = 1 then
      let mutated := n5Direction1Mutation cf ends p st
      let isomer := mutated
      let st2 := n5Restore cf ends p mutated
      if validate isomer then (st2, Except.ok (isomers ++ [isomer]))
      else (st2, Except.error ())
    else (st, Except.ok isomers)
  match step1 with
  | (st1, Except.error e) => (st1, Except.error e)
  | (st1, Except.ok isomers1) =>
    if p.direction = 2 then
      let mutated := n5Direction2Mutation cf ends p st1
      let isomer := mutated
      let st2 := n5Restore cf ends p mutated
      if validate isomer then (st2, Except.ok (isomers1 ++ [isomer]))
      else (st2, Except.error ())
    else (st1, Except.ok isomers1)

def n5ProcessPaths (cf : ChargeFn) (ends : BondEnds)
    (validate : MolState → Bool) :
    List N5Path → MolState → List MolState →
    MolState × Except Unit (List MolState)
  | [], st, isomers => (st, Except.ok isomers)
  | p :: rest, st, isomers =>
    match n5ProcessPath cf ends validate p st isomers with
    | (st2, Except.ok isomers2) =>
      n5ProcessPaths cf ends validate rest st2 isomers2
    | (st2, Except.error e) => (st2, Except.error e)

def n5ScanAtoms (cf : ChargeFn) (ends : BondEnds)
    (validate : MolState → Bool)
    (findPaths : MolState → Nat → List N5Path) :
    List Nat → MolState → List MolState →
    MolState × Except Unit (List MolState)
  | [], st, isomers => (st, Except.ok isomers)
  | i :: rest, st, isomers =>
    match n5ProcessPaths cf ends validate (findPaths st i) st isomers with
    | (st2, Except.ok isomers2) =>
      n5ScanAtoms cf ends validate findPaths rest st2 isomers2
    | (st2, Except.error e) => (st2, Except.error e)

/-- Source `generateN5dd_N5tsResonanceStructures(mol)`: iterates over every
atom; eligibility is decided entirely by the external path finder
`pathfinder.findAllDelocalizationPathsN5dd_N5ts`. -/
def generateN5dd_N5tsResonanceStructures (cf : ChargeFn) (ends : BondEnds)
    (validate : MolState → Bool)
    (findPaths : MolState → Nat → List N5Path) (mol : MolState) :
    MolState × Except Unit (List MolState) :=
  n5ScanAtoms cf ends validate findPaths (List.range mol.radical.length)
    mol []

/-!
`generateOppositeKekuleStructure`.  The aromaticity test of the input and
the aromatic-ring perception on the working copy are external; they enter
as the parameters `molIsAromatic` and `aromaticBonds` (the latter is the
second component of `getAromaticRings`, one list of bond indices per
aromatic ring).
-/

/-- The counting/flip loop of `generateOppositeKekuleStructure`: walk the
ring's bonds; a single bond (`2` doubled) is counted in `numS` and set to
double (`4`), a double bond is counted in `numD` and set to single; any
other order aborts with an empty result (`none`). -/
def flipRingBonds : List Nat → Nat → Nat → MolState →
    Option (Nat × Nat × MolState)
  | [], numS, numD, st => some (numS, numD, st)
  | j :: rest, numS, numD, st =>
    let o := st.order.getD j 0
    if o = 2 then flipRingBonds rest (numS + 1) numD (setOrder st j 4)
    else if o = 4 then flipRingBonds rest numS (numD + 1) (setOrder st j 2)
    else none

/-- Source `generateOppositeKekuleStructure(mol)`: refuse the aromatic form,
work on a deep copy, require exactly one aromatic ring, flip that ring's
single/double pattern, require exactly `3` singles and `3` doubles, then
revalidate atom types (a failure returns the empty list). -/
def generateOppositeKekuleStructure (molIsAromatic : Bool)
    (aromaticBonds : List (List Nat)) (validate : MolState → Bool)
    (mol : MolState) : List MolState :=
  if molIsAromatic then []
  else if aromaticBonds.length ≠ 1 then []
  else
    match flipRingBonds (aromaticBonds.headD []) 0 0 mol with
    | none => []
    | some (numS, numD, molecule) =>
      if numS ≠ 3 ∨ numD ≠ 3 then []
      else if validate molecule then [molecule] else []

/-!
The ring-by-ring retry loop of `generateAromaticResonanceStructures`
(lines 513-538) and the surrounding per-candidate promotion block (lines
490-544).  Ring perception is external: `aromaticBonds` is a list of
rings, each a list of bond indices.  `updateAtomTypes` on the whole
molecule is again the Boolean `validate`.
-/

/-- Set every bond of one ring to the benzene order (`1.5`, doubled `3`). -/
def promoteRing (ring : List Nat) (st : MolState) : MolState :=
  ring.foldl (fun s j => setOrder s j 3) st

/-- Promote a list of rings in order. -/
def promoteRings (rings : List (List Nat)) (st : MolState) : MolState :=
  rings.foldl (fun s ring => promoteRing ring s) st

/-- The save-then-promote walk over one ring's bonds (lines 518-521):
append the current order of each bond to the saved list, then set the
bond to the benzene order. -/
def savePromote : List Nat → MolState → List Int × MolState
  | [], st => ([], st)
  | j :: rest, st =>
    let o := st.order.getD j 0
    let st2 := setOrder st j 3
    let r := savePromote rest st2
    (o :: r.1, r.2)

/-- Restore saved bond orders pairwise (lines 527-528 and 510-512). -/
def restoreOrders : List Nat → List Int → MolState → MolState
  | [], _, st => st
  | _ :: _, [], st => st
  | j :: rest, o :: os, st => restoreOrders rest os (setOrder st j o)

/-- Restore every ring from its saved order list (lines 510-512). -/
def restoreAllRings : List (List Nat) → List (List Int) → MolState →
    MolState
  | [], _, st => st
  | _ :: _, [], st => st
  | ring :: rings, os :: oss, st =>
    restoreAllRings rings oss (restoreOrders ring os st)

/-- The ring-by-ring retry loop (lines 514-534): while the scan index is
below the ring count and fewer than twice-the-ring-count attempts have
been made, promote ring `i` and revalidate; on success advance `i`, on
failure undo the ring and rotate it to the back of the queue.  Returns
the final state, the final queue, the final index (the number of rings
made aromatic) and the final attempt counter. -/
def aromaticRetryLoop (validate : MolState → Bool) (st : MolState)
    (queue : List (List Nat)) (i counter : Nat) :
    MolState × List (List Nat) × Nat × Nat :=
  if h : i < queue.length ∧ counter < 2 * queue.length then
    let ring := queue.get ⟨i, h.1⟩
    let r := savePromote ring st
    if validate r.2 then
      aromaticRetryLoop validate r.2 queue (i + 1) (counter + 1)
    else
      aromaticRetryLoop validate (restoreOrders ring r.1 r.2)
        (queue.eraseIdx i ++ [ring]) i (counter + 1)
  else (st, queue, i, counter)
termination_by 2 * queue.length - counter
decreasing_by
  · omega
  · have hlen : (queue.eraseIdx i ++ [queue.get ⟨i, h.1⟩]).length =
        queue.length := by
      have hi := h.1
      simp [List.length_eraseIdx, hi]
      omega
    omega

/-- The per-candidate promotion block of
`generateAromaticResonanceStructures` (lines 490-538): skip a candidate
with no aromatic rings; save all ring bond orders, promote every ring,
revalidate; if that fails, restore everything and run the ring-by-ring
retry loop; a candidate for which not a single ring could be promoted
(`i == 0`) is discarded (`none`). -/
def tryAromatizeCandidate (validate : MolState → Bool) (st : MolState)
    (aromaticBonds : List (List Nat)) : Option MolState :=
  if aromaticBonds.isEmpty then none
  else
    let originalBonds :=
      aromaticBonds.map (fun ring => ring.map (fun j => st.order.getD j 0))
    let promoted := promoteRings aromaticBonds st
    if validate promoted then some promoted
    else
      let reset := restoreAllRings aromaticBonds originalBonds promoted
      let r := aromaticRetryLoop validate reset aromaticBonds 0 0
      if r.2.2.1 = 0 then none else some r.1

/-!
The Clar optimizer.  The external pieces — ring perception
(`getAromaticRings`), the ring-incident bond list, and the binary ILP
solver `lpsolve` — are parameters: `aromaticRings` (atom indices per
ring), `bondsList` (bond indices), and `solve`, which maps the list of
accumulated cutting constraints to the triple `(status, objVal,
solution)`.  Solver values are rationals, standing in for the floats the
solver returns.
-/

/-- A cutting constraint `(coefficients, bound)` meaning
`coefficients · vars <= bound`. -/
abbrev ClarConstraint : Type := List ℚ × ℚ

/-- One entry of `_clarOptimization`'s result: the molecule copy, the
aromatic rings, the bond list, and the solver's 0/1 assignment. -/
structure ClarSolution where
  molecule : MolState
  aromaticRings : List (List Nat)
  bonds : List Nat
  solution : List ℚ
deriving DecidableEq, Repr

/-- Sum of a solution's first `l` entries: its sextet count, the
objective value of the ILP (sextets weigh `1`, bond variables `0`). -/
def sextetCount (l : Nat) (solution : List ℚ) : ℚ :=
  (solution.take l).foldl (fun a b => a + b) 0

/-- Source `_clarOptimization(mol, constraints, maxNum)`: solve the ILP with the
accumulated cutting constraints; raise (`Except.error`) on a failed
status, a sub-optimal objective when `maxNum` is already set, or a
non-0/1 solution; return no solutions when the objective is zero;
otherwise add the cutting constraint over this solution's sextet
variables and recurse, catching any error from the recursion as an empty
inner solution list.  The recursion is driven by `fuel`; exhausted fuel
behaves like a failed branch. -/
def clarOptimization (aromaticRings : List (List Nat))
    (bondsList : List Nat) (solve : List ClarConstraint → Int × ℚ × List ℚ)
    (mol : MolState) :
    Nat → Option (List ClarConstraint) → Option ℚ →
    Except Unit (List ClarSolution)
  | 0, _, _ => Except.error ()
  | fuel + 1, constraints, maxNum =>
    if aromaticRings.isEmpty then Except.ok []
    else
      let l := aromaticRings.length
      let res := solve (constraints.getD [])
      let status := res.1
      let objVal := res.2.1
      let solution := res.2.2
      if status ≠ 0 then Except.error ()
      else if objVal = 0 then Except.ok []
      else if ∃ m, maxNum = some m ∧ objVal < m then Except.error ()
      else
        let maxNum2 := maxNum.getD objVal
        if ∃ x ∈ solution, x ≠ 1 ∧ x ≠ 0 then Except.error ()
        else
          let y := solution.take l
          let newA := y ++ List.replicate bondsList.length (0 : ℚ)
          let newB := (y.foldl (fun a b => a + b) 0) - 1
          let constraints2 := constraints.getD [] ++ [(newA, newB)]
          let innerSolutions :=
            match clarOptimization aromaticRings bondsList solve mol fuel
              (some constraints2) (some maxNum2) with
            | Except.error _ => []
            | Except.ok xs => xs
          Except.ok (innerSolutions ++
            [⟨mol, aromaticRings, bondsList, solution⟩])

/-- Bond indices joining two atoms of the given ring:
`_clarTransformation`'s scan over atom pairs with `mol.hasBond`. -/
def bondsWithinRing (ends : BondEnds) (ring : List Nat) : List Nat :=
  (List.range ends.length).filter (fun j =>
    ring.contains (ends.getD j (0, 0)).1 &&
    ring.contains (ends.getD j (0, 0)).2)

/-- Source `_clarTransformation(mol, aromaticRing)`: set every bond joining two
ring atoms to the benzene order. -/
def clarTransformation (ends : BondEnds) (ring : List Nat)
    (st : MolState) : MolState :=
  (bondsWithinRing ends ring).foldl (fun s j => setOrder s j 3) st

/-- Write the double-bond part of a Clar solution into the molecule
(lines 695-701): bond variable `0` sets a single bond, `1` a double bond,
anything else raises `ValueError` (the `Except.error`). -/
def applyBondAssignment : List (Nat × ℚ) → MolState →
    Except Unit MolState
  | [], st => Except.ok st
  | (j, xv) :: rest, st =>
    if xv = 0 then applyBondAssignment rest (setOrder st j 2)
    else if xv = 1 then applyBondAssignment rest (setOrder st j 4)
    else Except.error ()

/-- Process one Clar solution (the body of `generateClarStructures`'s
loop): write double bonds, convert each selected sextet ring to benzene
bonds, revalidate atom types; a revalidation failure drops the structure
(`none`), and a bad bond value propagates the `ValueError`. -/
def processClarSolution (ends : BondEnds) (validate : MolState → Bool)
    (e : ClarSolution) : Except Unit (Option MolState) :=
  let l := e.aromaticRings.length
  let y := e.solution.take l
  let x := e.solution.drop l
  match applyBondAssignment (e.bonds.zip x) e.molecule with
  | Except.error u => Except.error u
  | Except.ok st1 =>
    let st2 := (e.aromaticRings.zip y).foldl
      (fun s p => if p.2 = 1 then clarTransformation ends p.1 s else s) st1
    Except.ok (if validate st2 then some st2 else none)

def collectClarStructures (ends : BondEnds) (validate : MolState → Bool) :
    List ClarSolution → List MolState → Except Unit (List MolState)
  | [], acc => Except.ok acc
  | e :: rest, acc =>
    match processClarSolution ends validate e with
    | Except.error u => Except.error u
    | Except.ok none => collectClarStructures ends validate rest acc
    | Except.ok (some st) =>
      collectClarStructures ends validate rest (acc ++ [st])

/-- Source `generateClarStructures(mol)`: nothing for acyclic molecules; an
`ILPSolutionError` escaping the outermost `_clarOptimization` call yields
the empty list; otherwise each solution is materialized in order.  The
`ValueError` for an unaccepted bond value is not caught anywhere, so it
escapes as `Except.error`. -/
def generateClarStructures (molIsCyclic : Bool)
    (aromaticRings : List (List Nat)) (bondsList : List Nat)
    (solve : List ClarConstraint → Int × ℚ × List ℚ) (ends : BondEnds)
    (validate : MolState → Bool) (mol : MolState) (fuel : Nat) :
    Except Unit (List MolState) :=
  if ¬ molIsCyclic then Except.ok []
  else
    match clarOptimization aromaticRings bondsList solve mol fuel none none
      with
    | Except.error _ => Except.ok []
    | Except.ok output => collectClarStructures ends validate output []

/-!
Claim C1: the enumeration engine keeps its list free of equivalent pairs.
-/

theorem appendIfUnique_sub {M : Type} (keepIso : Bool)
    (iso ident : M → M → Bool) (molList : List M) (newMol : M) (x : M)
    (hx : x ∈ appendIfUnique keepIso iso ident molList newMol) :
    x ∈ molList ∨ x = newMol := by
  unfold appendIfUnique at hx
  by_cases hany : molList.any (fun mol =>
      activeEquivalence keepIso iso ident mol newMol)
  · rw [if_pos hany] at hx
    exact Or.inl hx
  · rw [if_neg hany] at hx
    rcases List.mem_append.mp hx with h | h
    · exact Or.inl h
    · exact Or.inr (List.mem_singleton.mp h)

theorem appendIfUnique_pairwise {M : Type} (keepIso : Bool)
    (iso ident : M → M → Bool) (molList : List M) (newMol : M)
    (hp : molList.Pairwise (fun a b =>
      activeEquivalence keepIso iso ident a b = false)) :
    (appendIfUnique keepIso iso ident molList newMol).Pairwise
      (fun a b => activeEquivalence keepIso iso ident a b = false) := by
  unfold appendIfUnique
  by_cases hany : molList.any (fun mol =>
      activeEquivalence keepIso iso ident mol newMol)
  · rw [if_pos hany]
    exact hp
  · rw [if_neg hany]
    rw [List.pairwise_append]
    refine ⟨hp, List.pairwise_singleton _ _, ?_⟩
    intro a ha b hb
    rw [List.mem_singleton.mp hb]
    have := (List.any_eq_true.not.mp hany)
    push_neg at this
    have h2 := this a ha
    simpa using h2

theorem foldl_appendIfUnique_pairwise {M : Type} (keepIso : Bool)
    (iso ident : M → M → Bool) (cands : List M) (molList : List M)
    (hp : molList.Pairwise (fun a b =>
      activeEquivalence keepIso iso ident a b = false)) :
    (cands.foldl (appendIfUnique keepIso iso ident) molList).Pairwise
      (fun a b => activeEquivalence keepIso iso ident a b = false) := by
  induction cands generalizing molList with
  | nil => exact hp
  | cons c rest ih =>
    exact ih _ (appendIfUnique_pairwise keepIso iso ident molList c hp)

theorem resonanceWorklist_pairwise {M : Type} (keepIso : Bool)
    (iso ident : M → M → Bool) (methods : List (M → List M)) (fuel : Nat) :
    ∀ (molList : List M) (index : Nat),
    molList.Pairwise (fun a b =>
      activeEquivalence keepIso iso ident a b = false) →
    (resonanceWorklist iso ident methods keepIso fuel molList index).Pairwise
      (fun a b => activeEquivalence keepIso iso ident a b = false) := by
  induction fuel with
  | zero => intro molList index hp; exact hp
  | succ n ih =>
    intro molList index hp
    unfold resonanceWorklist
    by_cases h : index < molList.length
    · rw [dif_pos h]
      exact ih _ _ (foldl_appendIfUnique_pairwise keepIso iso ident _ _ hp)
    · rw [dif_neg h]
      exact hp

/-- Claim C1: for every list of seed structures that is pairwise
non-equivalent under the active mode (`isIsomorphic` when
`keepIsomorphic` is false, `isIdentical` when it is true, assumed
symmetric as graph equivalences are) and every list of move-family
functions, the list returned by `_generateResonanceStructures` contains
no two members that are equivalent under the active mode: every candidate
is scanned against the entire current list and appended only if no
equivalent member is found. -/
theorem claim1_engine_pairwise_nonequivalent {M : Type} (keepIso cp : Bool)
    (iso ident : M → M → Bool) (methods : List (M → List M))
    (seeds : List M) (fuel : Nat)
    (hsymm : ∀ a b, activeEquivalence keepIso iso ident a b =
      activeEquivalence keepIso iso ident b a)
    (hseed : seeds.Pairwise (fun a b =>
      activeEquivalence keepIso iso ident a b = false)) :
    (generateResonanceStructuresEngine iso ident seeds methods keepIso cp
      fuel).Pairwise (fun a b =>
        activeEquivalence keepIso iso ident a b = false ∧
        activeEquivalence keepIso iso ident b a = false) := by
  have hbase : (generateResonanceStructuresEngine iso ident seeds methods
      keepIso cp fuel).Pairwise (fun a b =>
        activeEquivalence keepIso iso ident a b = false) := by
    unfold generateResonanceStructuresEngine
    cases cp with
    | false =>
      exact resonanceWorklist_pairwise keepIso iso ident methods fuel
        seeds 0 hseed
    | true =>
      simp only [List.take_length]
      exact resonanceWorklist_pairwise keepIso iso ident methods fuel
        seeds 0 hseed
  refine hbase.imp ?_
  intro a b hab
  exact ⟨hab, by rw [hsymm b a]; exact hab⟩

/-- Witness for C1: a concrete instantiation over `Nat` stand-ins with a
symmetric equivalence, two non-equivalent seeds, and one move family. -/
theorem claim1_engine_pairwise_nonequivalent_witness :
    (∀ a b : Nat, activeEquivalence false (fun x y => x % 3 == y % 3)
      (fun x y => x == y) a b =
      activeEquivalence false (fun x y => x % 3 == y % 3)
      (fun x y => x == y) b a) ∧
    ([0, 1] : List Nat).Pairwise (fun a b =>
      activeEquivalence false (fun x y => x % 3 == y % 3)
      (fun x y => x == y) a b = false) ∧
    (generateResonanceStructuresEngine (fun x y => x % 3 == y % 3)
      (fun x y => x == y) [0, 1] [fun n => [n + 1]] false false
      6).Pairwise (fun a b =>
        activeEquivalence false (fun x y => x % 3 == y % 3)
        (fun x y => x == y) a b = false ∧
        activeEquivalence false (fun x y => x % 3 == y % 3)
        (fun x y => x == y) b a = false) := by
  refine ⟨?_, ?_, ?_⟩
  · intro a b
    simp only [activeEquivalence, if_neg (Bool.false_ne_true)]
    by_cases h : a % 3 = b % 3
    · simp [h]
    · have h2 : ¬ b % 3 = a % 3 := fun hh => h hh.symm
      simp [h, h2]
  · decide
  · exact claim1_engine_pairwise_nonequivalent false false
      (fun x y => x % 3 == y % 3) (fun x y => x == y) [fun n => [n + 1]]
      [0, 1] 6
      (by
        intro a b
        simp only [activeEquivalence, if_neg (Bool.false_ne_true)]
        by_cases h : a % 3 = b % 3
        · simp [h]
        · have h2 : ¬ b % 3 = a % 3 := fun hh => h hh.symm
          simp [h, h2])
      (by decide)

/-!
Claim C9: on line 183 the `keepIsomorphic` flag sits outside the call, so
the Kekule enumeration step of the radical monocyclic aromatic branch
always deduplicates in isomorphic mode.
-/

/-- Claim C9: concrete demonstration over `Nat` stand-ins.  The branch is
called with `keepIsomorphic = true` (identical mode); the Kekule move
produces the structure `1`, which is isomorphic but not identical to the
seed `0`.  The branch still drops it — its Kekule step ran in isomorphic
mode because the flag is not passed on line 183 — whereas the engine
honoring identical mode on the same input keeps both structures. -/
theorem claim9_kekule_step_mode_not_propagated :
    radicalMonoAromaticBranch (fun a b => (a + b == 1) || (a == b))
      (fun a b => a == b) (fun n => if n = 0 then [1] else [])
      (fun _ => []) true 3 [0] = [0] ∧
    ((fun (a b : Nat) => a == b) 0 1) = false ∧
    ((fun (a b : Nat) => (a + b == 1) || (a == b)) 0 1) = true ∧
    generateResonanceStructuresEngine
      (fun a b => (a + b == 1) || (a == b)) (fun a b => a == b) [0]
      [fun n => if n = 0 then [1] else []] true false 3 = [0, 1] := by
  refine ⟨?_, by decide, by decide, ?_⟩
  · decide
  · decide

/-!
Claim C2: the `direction == 2` block of
`generateN5dd_N5tsResonanceStructures` is textually identical to the
`direction == 1` block, so it applies the same mutation instead of the
symmetric reverse the specification describes.
-/

/-- Claim C2 evaluation: on a concrete nitrogen-ish path flagged
`direction = 2` (atoms `0,1,2`; `bond12` a triple bond, `bond13` a single
bond), the mutation the source applies equals the direction-1 mutation
and differs from the symmetric-reverse mutation the specification
describes (`bond12 +1`, `bond13 -1`, `atom2.lonePairs -1`,
`atom3.lonePairs +1`). -/
theorem claim2_n5_direction2_same_as_direction1 :
    n5Direction2Mutation (fun _ rad lp osum => 10 - rad - 2 * lp - osum)
      [(0, 1), (0, 2)] ⟨0, 1, 2, 0, 1, 2⟩
      ⟨[0, 0, 0], [0, 0, 3], [0, 0, 0], [6, 2]⟩ =
    n5Direction1Mutation (fun _ rad lp osum => 10 - rad - 2 * lp - osum)
      [(0, 1), (0, 2)] ⟨0, 1, 2, 0, 1, 2⟩
      ⟨[0, 0, 0], [0, 0, 3], [0, 0, 0], [6, 2]⟩ ∧
    n5Direction2Mutation (fun _ rad lp osum => 10 - rad - 2 * lp - osum)
      [(0, 1), (0, 2)] ⟨0, 1, 2, 0, 1, 2⟩
      ⟨[0, 0, 0], [0, 0, 3], [0, 0, 0], [6, 2]⟩ ≠
    n5SpecDirectionBMutation (fun _ rad lp osum => 10 - rad - 2 * lp - osum)
      [(0, 1), (0, 2)] ⟨0, 1, 2, 0, 1, 2⟩
      ⟨[0, 0, 0], [0, 0, 3], [0, 0, 0], [6, 2]⟩ := by
  constructor
  · rfl
  · decide

/-!
Claim C4: every move applier undoes each mutation with its exact inverse
and hands the shared working graph back unchanged.
-/

theorem getD_updAt_ne {α : Type} (l : List α) (i j : Nat) (f : α → α)
    (d : α) (h : i ≠ j) : (updAt l i f).getD j d = l.getD j d := by
  rw [getD_updAt]
  simp [h]

/-- A decrement at one position followed by an increment at the same
position is the identity. -/
theorem updAt_sub_add_cancel (l : List Int) (i : Nat) (k : Int) :
    updAt (updAt l i (fun x => x - k)) i (fun x => x + k) = l := by
  rw [updAt_updAt_same]
  rw [updAt_congr _ _ _ (fun x => x) (by intro x; show x - k + k = x; omega),
    updAt_id]

theorem updAt_add_sub_cancel (l : List Int) (i : Nat) (k : Int) :
    updAt (updAt l i (fun x => x + k)) i (fun x => x - k) = l := by
  rw [updAt_updAt_same]
  rw [updAt_congr _ _ _ (fun x => x) (by intro x; show x + k - k = x; omega),
    updAt_id]

/-- Writing two scratch values at two distinct positions and then
writing back the original values restores the list. -/
theorem charge_collapse2 (C : List Int) (a1 a2 : Nat) (k1 k2 : Int)
    (h12 : a1 ≠ a2) :
    updAt (updAt (updAt (updAt C a1 (fun _ => k1)) a2 (fun _ => k2)) a1
      (fun _ => C.getD a1 0)) a2 (fun _ => C.getD a2 0) = C := by
  refine ext_getD 0 _ _ (by simp [length_updAt]) ?_
  intro j
  simp only [getD_updAt, length_updAt]
  by_cases hj : j < C.length
  · by_cases e1 : a1 = j
    · by_cases e2 : a2 = j
      · exact absurd (e1.trans e2.symm) h12
      · subst e1
        simp [hj, e2]
    · by_cases e2 : a2 = j
      · subst e2
        simp [hj, e1]
      · simp [hj, e1, e2]
  · simp [hj]

/-- Same as `charge_collapse2` with three pairwise distinct positions. -/
theorem charge_collapse3 (C : List Int) (a1 a2 a3 : Nat)
    (k1 k2 k3 : Int) (h12 : a1 ≠ a2) (h13 : a1 ≠ a3) (h23 : a2 ≠ a3) :
    updAt (updAt (updAt (updAt (updAt (updAt C a1 (fun _ => k1)) a2
      (fun _ => k2)) a3 (fun _ => k3)) a1 (fun _ => C.getD a1 0)) a2
      (fun _ => C.getD a2 0)) a3 (fun _ => C.getD a3 0) = C := by
  refine ext_getD 0 _ _ (by simp [length_updAt]) ?_
  intro j
  simp only [getD_updAt, length_updAt]
  by_cases hj : j < C.length
  · by_cases e1 : a1 = j
    · by_cases e2 : a2 = j
      · exact absurd (e1.trans e2.symm) h12
      · by_cases e3 : a3 = j
        · exact absurd (e1.trans e3.symm) h13
        · subst e1
          simp [hj, e2, e3]
    · by_cases e2 : a2 = j
      · by_cases e3 : a3 = j
        · exact absurd (e2.trans e3.symm) h23
        · subst e2
          simp [hj, e1, e3]
      · by_cases e3 : a3 = j
        · subst e3
          simp [hj, e1, e2]
        · simp [hj, e1, e2, e3]
  · simp [hj]

/-- The allyl-shift restore is the exact inverse of the allyl-shift
mutation, for every graph and every path. -/
theorem adjacentRoundtrip (p : AdjPath) (st : MolState) :
    adjacentRestore p (adjacentMutation p st) = st := by
  obtain ⟨R, L, C, O⟩ := st
  simp only [adjacentMutation, adjacentRestore, decrementRadical,
    incrementRadical, incrementOrder, decrementOrder, MolState.mk.injEq]
  have hR : updAt (updAt (updAt (updAt R p.atom1 (fun x => x - 1))
      p.atom3 (fun x => x + 1)) p.atom1 (fun x => x + 1)) p.atom3
      (fun x => x - 1) = R :=
    updAt_four_cancel R p.atom1 p.atom3 _ _ _ _
      (by intro x; show x - 1 + 1 = x; omega)
      (by intro x; show x + 1 - 1 = x; omega)
      (by intro x; show x - 1 + 1 + 1 - 1 = x; omega)
  have hO : updAt (updAt (updAt (updAt O p.bond12 (fun x => x + 2))
      p.bond23 (fun x => x - 2)) p.bond12 (fun x => x - 2)) p.bond23
      (fun x => x + 2) = O :=
    updAt_four_cancel O p.bond12 p.bond23 _ _ _ _
      (by intro x; show x + 2 - 2 = x; omega)
      (by intro x; show x - 2 + 2 = x; omega)
      (by intro x; show x + 2 - 2 - 2 + 2 = x; omega)
  simp [hR, hO]

/-- The lone-pair/radical-shift restore is the exact inverse of its
mutation on any charge-consistent graph (the two path atoms are distinct
bonded atoms). -/
theorem lonePairRoundtrip (cf : ChargeFn) (ends : BondEnds)
    (p : LonePairPath) (st : MolState) (hne : p.atom1 ≠ p.atom2)
    (hc1 : st.charge.getD p.atom1 0 =
      cf p.atom1 (st.radical.getD p.atom1 0) (st.lonePairs.getD p.atom1 0)
        (orderSum ends st.order p.atom1))
    (hc2 : st.charge.getD p.atom2 0 =
      cf p.atom2 (st.radical.getD p.atom2 0) (st.lonePairs.getD p.atom2 0)
        (orderSum ends st.order p.atom2)) :
    lonePairRestore cf ends p (lonePairMutation cf ends p st) = st := by
  obtain ⟨R, L, C, O⟩ := st
  simp only at hc1 hc2
  simp only [lonePairMutation, lonePairRestore, decrementRadical,
    incrementRadical, decrementLonePairs, incrementLonePairs, updateCharge]
  -- the radical and lone-pair stacks at the restore's first recompute
  have hR3 : updAt (updAt (updAt R p.atom1 (fun x => x - 1)) p.atom2
      (fun x => x + 1)) p.atom1 (fun x => x + 1) =
      updAt R p.atom2 (fun x => x + 1) := by
    rw [updAt_comm R p.atom1 p.atom2 _ _ hne, updAt_sub_add_cancel]
  have hL3 : updAt (updAt (updAt L p.atom1 (fun x => x + 1)) p.atom2
      (fun x => x - 1)) p.atom1 (fun x => x - 1) =
      updAt L p.atom2 (fun x => x - 1) := by
    rw [updAt_comm L p.atom1 p.atom2 _ _ hne, updAt_add_sub_cancel]
  simp only [hR3, hL3]
  have hR4 : updAt (updAt R p.atom2 (fun x => x + 1)) p.atom2
      (fun x => x - 1) = R := updAt_add_sub_cancel R p.atom2 1
  have hL4 : updAt (updAt L p.atom2 (fun x => x - 1)) p.atom2
      (fun x => x + 1) = L := updAt_sub_add_cancel L p.atom2 1
  simp only [hR4, hL4]
  -- the restore's recomputations read fully restored structural values
  have hg1 : (updAt R p.atom2 (fun x => x + 1)).getD p.atom1 0 =
      R.getD p.atom1 0 := getD_updAt_ne R p.atom2 p.atom1 _ 0
        (fun hh => hne hh.symm)
  have hg2 : (updAt L p.atom2 (fun x => x - 1)).getD p.atom1 0 =
      L.getD p.atom1 0 := getD_updAt_ne L p.atom2 p.atom1 _ 0
        (fun hh => hne hh.symm)
  simp only [hg1, hg2]
  rw [← hc1, ← hc2]
  rw [charge_collapse2 C p.atom1 p.atom2 _ _ hne]

/-- The N5 restore is the exact inverse of the direction-1 mutation on
any charge-consistent graph with pairwise distinct path atoms. -/
theorem n5Roundtrip1 (cf : ChargeFn) (ends : BondEnds) (p : N5Path)
    (st : MolState) (h12 : p.atom1 ≠ p.atom2) (h13 : p.atom1 ≠ p.atom3)
    (h23 : p.atom2 ≠ p.atom3)
    (hc1 : st.charge.getD p.atom1 0 =
      cf p.atom1 (st.radical.getD p.atom1 0) (st.lonePairs.getD p.atom1 0)
        (orderSum ends st.order p.atom1))
    (hc2 : st.charge.getD p.atom2 0 =
      cf p.atom2 (st.radical.getD p.atom2 0) (st.lonePairs.getD p.atom2 0)
        (orderSum ends st.order p.atom2))
    (hc3 : st.charge.getD p.atom3 0 =
      cf p.atom3 (st.radical.getD p.atom3 0) (st.lonePairs.getD p.atom3 0)
        (orderSum ends st.order p.atom3)) :
    n5Restore cf ends p (n5Direction1Mutation cf ends p st) = st := by
  obtain ⟨R, L, C, O⟩ := st
  simp only at hc1 hc2 hc3
  simp only [n5Direction1Mutation, n5Restore, decrementOrder,
    incrementOrder, decrementLonePairs, incrementLonePairs, updateCharge]
  have hO : updAt (updAt (updAt (updAt O p.bond12 (fun x => x - 2))
      p.bond13 (fun x => x + 2)) p.bond12 (fun x => x + 2)) p.bond13
      (fun x => x - 2) = O :=
    updAt_four_cancel O p.bond12 p.bond13 _ _ _ _
      (by intro x; show x - 2 + 2 = x; omega)
      (by intro x; show x + 2 - 2 = x; omega)
      (by intro x; show x - 2 + 2 + 2 - 2 = x; omega)
  have hL : updAt (updAt (updAt (updAt L p.atom2 (fun x => x + 1))
      p.atom3 (fun x => x - 1)) p.atom2 (fun x => x - 1)) p.atom3
      (fun x => x + 1) = L :=
    updAt_four_cancel L p.atom2 p.atom3 _ _ _ _
      (by intro x; show x + 1 - 1 = x; omega)
      (by intro x; show x - 1 + 1 = x; omega)
      (by intro x; show x + 1 - 1 - 1 + 1 = x; omega)
  simp only [hO, hL]
  rw [← hc1, ← hc2, ← hc3]
  rw [charge_collapse3 C p.atom1 p.atom2 p.atom3 _ _ _ h12 h13 h23]

/-- The N5 restore also exactly inverts the direction-2 mutation (the
source applies the same statements in both direction blocks). -/
theorem n5Roundtrip2 (cf : ChargeFn) (ends : BondEnds) (p : N5Path)
    (st : MolState) (h12 : p.atom1 ≠ p.atom2) (h13 : p.atom1 ≠ p.atom3)
    (h23 : p.atom2 ≠ p.atom3)
    (hc1 : st.charge.getD p.atom1 0 =
      cf p.atom1 (st.radical.getD p.atom1 0) (st.lonePairs.getD p.atom1 0)
        (orderSum ends st.order p.atom1))
    (hc2 : st.charge.getD p.atom2 0 =
      cf p.atom2 (st.radical.getD p.atom2 0) (st.lonePairs.getD p.atom2 0)
        (orderSum ends st.order p.atom2))
    (hc3 : st.charge.getD p.atom3 0 =
      cf p.atom3 (st.radical.getD p.atom3 0) (st.lonePairs.getD p.atom3 0)
        (orderSum ends st.order p.atom3)) :
    n5Restore cf ends p (n5Direction2Mutation cf ends p st) = st :=
  n5Roundtrip1 cf ends p st h12 h13 h23 hc1 hc2 hc3

theorem adjacentProcessPaths_state (validate : MolState → Bool)
    (ps : List AdjPath) (st : MolState) (isomers : List MolState) :
    (adjacentProcessPaths validate ps st isomers).1 = st := by
  induction ps generalizing isomers with
  | nil => rfl
  | cons p rest ih =>
    simp only [adjacentProcessPaths, adjacentRoundtrip]
    by_cases hv : validate (adjacentMutation p st)
    · simp only [hv, if_true]
      exact ih _
    · simp [hv]

theorem adjacentScanAtoms_state (validate : MolState → Bool)
    (findPaths : MolState → Nat → List AdjPath) (atoms : List Nat)
    (st : MolState) (isomers : List MolState) :
    (adjacentScanAtoms validate findPaths atoms st isomers).1 = st := by
  induction atoms generalizing isomers with
  | nil => rfl
  | cons i rest ih =>
    simp only [adjacentScanAtoms]
    have hps := adjacentProcessPaths_state validate (findPaths st i) st
      isomers
    rcases hr : adjacentProcessPaths validate (findPaths st i) st isomers
      with ⟨st2, exc⟩
    have hst2 : st2 = st := by rw [hr] at hps; exact hps
    cases exc with
    | ok isomers2 =>
      simp only []
      rw [hst2]
      exact ih _
    | error e => simpa using hst2

theorem lonePairProcessPaths_state (cf : ChargeFn) (ends : BondEnds)
    (validate : MolState → Bool) (ps : List LonePairPath) (st : MolState)
    (isomers : List MolState)
    (hcons : chargeConsistent cf ends st)
    (hne : ∀ p ∈ ps, p.atom1 ≠ p.atom2) :
    (lonePairProcessPaths cf ends validate ps st isomers).1 = st := by
  induction ps generalizing isomers with
  | nil => rfl
  | cons p rest ih =>
    have hrt : lonePairRestore cf ends p (lonePairMutation cf ends p st) =
        st :=
      lonePairRoundtrip cf ends p st (hne p (List.mem_cons_self p rest))
        (hcons p.atom1) (hcons p.atom2)
    simp only [lonePairProcessPaths, hrt]
    by_cases hv : validate (lonePairMutation cf ends p st)
    · simp only [hv, if_true]
      exact ih _ (fun q hq => hne q (List.mem_cons_of_mem p hq))
    · simp [hv]

theorem lonePairScanAtoms_state (cf : ChargeFn) (ends : BondEnds)
    (validate : MolState → Bool)
    (findPaths : MolState → Nat → List LonePairPath) (atoms : List Nat)
    (st : MolState) (isomers : List MolState)
    (hcons : chargeConsistent cf ends st)
    (hne : ∀ i, ∀ p ∈ findPaths st i, p.atom1 ≠ p.atom2) :
    (lonePairScanAtoms cf ends validate findPaths atoms st isomers).1 =
      st := by
  induction atoms generalizing isomers with
  | nil => rfl
  | cons i rest ih =>
    simp only [lonePairScanAtoms]
    have hps := lonePairProcessPaths_state cf ends validate
      (findPaths st i) st isomers hcons (hne i)
    rcases hr : lonePairProcessPaths cf ends validate (findPaths st i) st
      isomers with ⟨st2, exc⟩
    have hst2 : st2 = st := by rw [hr] at hps; exact hps
    cases exc with
    | ok isomers2 =>
      simp only []
      rw [hst2]
      exact ih _
    | error e => simpa using hst2

theorem n5ProcessPath_state (cf : ChargeFn) (ends : BondEnds)
    (validate : MolState → Bool) (p : N5Path) (st : MolState)
    (isomers : List MolState)
    (hcons : chargeConsistent cf ends st)
    (hne : p.atom1 ≠ p.atom2 ∧ p.atom1 ≠ p.atom3 ∧ p.atom2 ≠ p.atom3) :
    (n5ProcessPath cf ends validate p st isomers).1 = st := by
  have hrt1 : n5Restore cf ends p (n5Direction1Mutation cf ends p st) =
      st :=
    n5Roundtrip1 cf ends p st hne.1 hne.2.1 hne.2.2 (hcons p.atom1)
      (hcons p.atom2) (hcons p.atom3)
  have hrt2 : n5Restore cf ends p (n5Direction2Mutation cf ends p st) =
      st :=
    n5Roundtrip2 cf ends p st hne.1 hne.2.1 hne.2.2 (hcons p.atom1)
      (hcons p.atom2) (hcons p.atom3)
  simp only [n5ProcessPath, hrt1, hrt2]
  by_cases hd1 : p.direction = 1
  · simp only [hd1, if_true]
    by_cases hv1 : validate (n5Direction1Mutation cf ends p st)
    · simp only [hv1, if_true]
      by_cases hd2 : p.direction = 2
      · simp only [hd2, if_true, hrt2]
        by_cases hv2 : validate (n5Direction2Mutation cf ends p st)
        · simp [hv2]
        · simp [hv2]
      · simp [hd2]
    · simp [hv1]
  · simp only [hd1, if_false]
    by_cases hd2 : p.direction = 2
    · simp only [hd2, if_true, hrt2]
      by_cases hv2 : validate (n5Direction2Mutation cf ends p st)
      · simp [hv2]
      · simp [hv2]
    · simp [hd2]

theorem n5ProcessPaths_state (cf : ChargeFn) (ends : BondEnds)
    (validate : MolState → Bool) (ps : List N5Path) (st : MolState)
    (isomers : List MolState)
    (hcons : chargeConsistent cf ends st)
    (hne : ∀ p ∈ ps,
      p.atom1 ≠ p.atom2 ∧ p.atom1 ≠ p.atom3 ∧ p.atom2 ≠ p.atom3) :
    (n5ProcessPaths cf ends validate ps st isomers).1 = st := by
  induction ps generalizing isomers with
  | nil => rfl
  | cons p rest ih =>
    simp only [n5ProcessPaths]
    have hpp := n5ProcessPath_state cf ends validate p st isomers hcons
      (hne p (List.mem_cons_self p rest))
    rcases hr : n5ProcessPath cf ends validate p st isomers with ⟨st2, exc⟩
    have hst2 : st2 = st := by rw [hr] at hpp; exact hpp
    cases exc with
    | ok isomers2 =>
      simp only []
      rw [hst2]
      exact ih _ (fun q hq => hne q (List.mem_cons_of_mem p hq))
    | error e => simpa using hst2

theorem n5ScanAtoms_state (cf : ChargeFn) (ends : BondEnds)
    (validate : MolState → Bool)
    (findPaths : MolState → Nat → List N5Path) (atoms : List Nat)
    (st : MolState) (isomers : List MolState)
    (hcons : chargeConsistent cf ends st)
    (hne : ∀ i, ∀ p ∈ findPaths st i,
      p.atom1 ≠ p.atom2 ∧ p.atom1 ≠ p.atom3 ∧ p.atom2 ≠ p.atom3) :
    (n5ScanAtoms cf ends validate findPaths atoms st isomers).1 = st := by
  induction atoms generalizing isomers with
  | nil => rfl
  | cons i rest ih =>
    simp only [n5ScanAtoms]
    have hps := n5ProcessPaths_state cf ends validate (findPaths st i) st
      isomers hcons (hne i)
    rcases hr : n5ProcessPaths cf ends validate (findPaths st i) st isomers
      with ⟨st2, exc⟩
    have hst2 : st2 = st := by rw [hr] at hps; exact hps
    cases exc with
    | ok isomers2 =>
      simp only []
      rw [hst2]
      exact ih _
    | error e => simpa using hst2

/-- Claim C4: each move applier hands the shared working graph back in
its exact pre-call state — every mutation is undone by its exact inverse
before the next path and before returning.  The graph is assumed
charge-consistent (the data-model invariant `updateCharge` maintains),
and the external path finders only return paths over distinct atoms. -/
theorem claim4_appliers_restore_state (cf : ChargeFn) (ends : BondEnds)
    (validate : MolState → Bool)
    (findAdj : MolState → Nat → List AdjPath)
    (findLP : MolState → Nat → List LonePairPath)
    (findN5 : MolState → Nat → List N5Path) (st : MolState)
    (hcons : chargeConsistent cf ends st)
    (hlp : ∀ i, ∀ p ∈ findLP st i, p.atom1 ≠ p.atom2)
    (hn5 : ∀ i, ∀ p ∈ findN5 st i,
      p.atom1 ≠ p.atom2 ∧ p.atom1 ≠ p.atom3 ∧ p.atom2 ≠ p.atom3) :
    (generateAdjacentResonanceStructures validate findAdj st).1 = st ∧
    (generateLonePairRadicalResonanceStructures cf ends validate findLP
      st).1 = st ∧
    (generateN5dd_N5tsResonanceStructures cf ends validate findN5 st).1 =
      st := by
  refine ⟨?_, ?_, ?_⟩
  · unfold generateAdjacentResonanceStructures
    by_cases hrad : isRadical st
    · simp only [hrad, if_true]
      exact adjacentScanAtoms_state validate findAdj _ st []
    · simp [hrad]
  · unfold generateLonePairRadicalResonanceStructures
    by_cases hrad : isRadical st
    · simp only [hrad, if_true]
      exact lonePairScanAtoms_state cf ends validate findLP _ st [] hcons
        hlp
    · simp [hrad]
  · exact n5ScanAtoms_state cf ends validate findN5 _ st [] hcons hn5

/-- Witness for C4: a concrete charge-consistent three-atom radical
molecule (valence table `[8, 8, 8]`) with one path per applier family. -/
theorem claim4_appliers_restore_state_witness :
    chargeConsistent
      (fun i rad lp osum => ([8, 8, 8].getD i 0 : Int) - rad - 2 * lp - osum)
      [(0, 1), (1, 2)]
      ⟨[1, 0, 0], [0, 1, 0], [5, 0, 4], [2, 4]⟩ ∧
    (∀ i, ∀ p ∈ (fun (_ : MolState) (i : Nat) =>
        if i = 0 then [(⟨0, 1⟩ : LonePairPath)] else [])
        (⟨[1, 0, 0], [0, 1, 0], [5, 0, 4], [2, 4]⟩ : MolState) i,
      p.atom1 ≠ p.atom2) ∧
    (∀ i, ∀ p ∈ (fun (_ : MolState) (i : Nat) =>
        if i = 0 then [(⟨0, 1, 2, 0, 1, 2⟩ : N5Path)] else [])
        (⟨[1, 0, 0], [0, 1, 0], [5, 0, 4], [2, 4]⟩ : MolState) i,
      p.atom1 ≠ p.atom2 ∧ p.atom1 ≠ p.atom3 ∧ p.atom2 ≠ p.atom3) ∧
    (generateAdjacentResonanceStructures (fun _ => true)
      (fun _ i => if i = 0 then [(⟨0, 1, 2, 0, 1⟩ : AdjPath)] else [])
      ⟨[1, 0, 0], [0, 1, 0], [5, 0, 4], [2, 4]⟩).1 =
      ⟨[1, 0, 0], [0, 1, 0], [5, 0, 4], [2, 4]⟩ ∧
    (generateLonePairRadicalResonanceStructures
      (fun i rad lp osum => ([8, 8, 8].getD i 0 : Int) - rad - 2 * lp - osum)
      [(0, 1), (1, 2)] (fun _ => true)
      (fun _ i => if i = 0 then [(⟨0, 1⟩ : LonePairPath)] else [])
      ⟨[1, 0, 0], [0, 1, 0], [5, 0, 4], [2, 4]⟩).1 =
      ⟨[1, 0, 0], [0, 1, 0], [5, 0, 4], [2, 4]⟩ ∧
    (generateN5dd_N5tsResonanceStructures
      (fun i rad lp osum => ([8, 8, 8].getD i 0 : Int) - rad - 2 * lp - osum)
      [(0, 1), (1, 2)] (fun _ => true)
      (fun _ i => if i = 0 then [(⟨0, 1, 2, 0, 1, 2⟩ : N5Path)] else [])
      ⟨[1, 0, 0], [0, 1, 0], [5, 0, 4], [2, 4]⟩).1 =
      ⟨[1, 0, 0], [0, 1, 0], [5, 0, 4], [2, 4]⟩ := by
  have hcons : chargeConsistent
      (fun i rad lp osum => ([8, 8, 8].getD i 0 : Int) - rad - 2 * lp - osum)
      [(0, 1), (1, 2)]
      ⟨[1, 0, 0], [0, 1, 0], [5, 0, 4], [2, 4]⟩ := by
    intro i
    rcases i with _ | _ | _ | n
    · decide
    · decide
    · decide
    · rfl
  have hlp : ∀ i, ∀ p ∈ (fun (_ : MolState) (i : Nat) =>
      if i = 0 then [(⟨0, 1⟩ : LonePairPath)] else [])
      (⟨[1, 0, 0], [0, 1, 0], [5, 0, 4], [2, 4]⟩ : MolState) i,
      p.atom1 ≠ p.atom2 := by
    intro i p hp
    by_cases hi : i = 0
    · subst hi
      simp only [if_true] at hp
      rw [List.mem_singleton.mp hp]
      decide
    · simp [hi] at hp
  have hn5 : ∀ i, ∀ p ∈ (fun (_ : MolState) (i : Nat) =>
      if i = 0 then [(⟨0, 1, 2, 0, 1, 2⟩ : N5Path)] else [])
      (⟨[1, 0, 0], [0, 1, 0], [5, 0, 4], [2, 4]⟩ : MolState) i,
      p.atom1 ≠ p.atom2 ∧ p.atom1 ≠ p.atom3 ∧ p.atom2 ≠ p.atom3 := by
    intro i p hp
    by_cases hi : i = 0
    · subst hi
      simp only [if_true] at hp
      rw [List.mem_singleton.mp hp]
      exact ⟨by decide, by decide, by decide⟩
    · simp [hi] at hp
  have hmain := claim4_appliers_restore_state
    (fun i rad lp osum => ([8, 8, 8].getD i 0 : Int) - rad - 2 * lp - osum)
    [(0, 1), (1, 2)] (fun _ => true)
    (fun _ i => if i = 0 then [(⟨0, 1, 2, 0, 1⟩ : AdjPath)] else [])
    (fun _ i => if i = 0 then [(⟨0, 1⟩ : LonePairPath)] else [])
    (fun _ i => if i = 0 then [(⟨0, 1, 2, 0, 1, 2⟩ : N5Path)] else [])
    ⟨[1, 0, 0], [0, 1, 0], [5, 0, 4], [2, 4]⟩ hcons hlp hn5
  exact ⟨hcons, hlp, hn5, hmain.1, hmain.2.1, hmain.2.2⟩

/-!
Claim C3: the claim says the three move appliers never raise and keep
candidates whose atom-type revalidation fails.  In the source the
appliers call `updateAtomTypes` without a `try/except` (every other
caller in the file wraps it), so a failing candidate aborts the applier
with the escaping `AtomTypeError` and is not kept.
-/

/-- Counterexample for C3 as stated: on a one-radical molecule with a
single eligible allyl path whose candidate fails atom-type revalidation,
`generateAdjacentResonanceStructures` does not return normally — the
`AtomTypeError` raised by the unguarded `updateAtomTypes` call escapes
(modelled as `Except.error`), and the candidate is not kept. -/
theorem claim3_applier_raises_counterexample :
    (generateAdjacentResonanceStructures (fun _ => false)
      (fun _ i => if i = 0 then [(⟨0, 1, 2, 0, 1⟩ : AdjPath)] else [])
      ⟨[1, 0, 0], [0, 0, 0], [0, 0, 0], [2, 4]⟩).2 =
      Except.error () := rfl

/-- The candidates the allyl applier keeps when every revalidation
succeeds: one snapshot of the mutated graph per eligible path. -/
def adjacentCandidates (findPaths : MolState → Nat → List AdjPath)
    (st : MolState) : List MolState :=
  ((List.range st.radical.length).map (fun i =>
    (findPaths st i).map (fun p => adjacentMutation p st))).flatten

def lonePairCandidates (cf : ChargeFn) (ends : BondEnds)
    (findPaths : MolState → Nat → List LonePairPath) (st : MolState) :
    List MolState :=
  ((List.range st.radical.length).map (fun i =>
    (findPaths st i).map (fun p => lonePairMutation cf ends p st))).flatten

/-- Snapshots one N5 path contributes: one per matching direction block. -/
def n5PathCandidates (cf : ChargeFn) (ends : BondEnds) (p : N5Path)
    (st : MolState) : List MolState :=
  (if p.direction = 1 then [n5Direction1Mutation cf ends p st] else []) ++
  (if p.direction = 2 then [n5Direction2Mutation cf ends p st] else [])

def n5Candidates (cf : ChargeFn) (ends : BondEnds)
    (findPaths : MolState → Nat → List N5Path) (st : MolState) :
    List MolState :=
  ((List.range st.radical.length).map (fun i =>
    ((findPaths st i).map (fun p => n5PathCandidates cf ends p st)).flatten)).flatten

theorem adjacentProcessPaths_allvalid (validate : MolState → Bool)
    (hv : ∀ m, validate m = true) (ps : List AdjPath) (st : MolState)
    (isomers : List MolState) :
    adjacentProcessPaths validate ps st isomers =
      (st, Except.ok (isomers ++ ps.map (fun p => adjacentMutation p st)))
    := by
  induction ps generalizing isomers with
  | nil => simp [adjacentProcessPaths]
  | cons p rest ih =>
    simp only [adjacentProcessPaths, adjacentRoundtrip, hv, if_true]
    rw [ih]
    simp

theorem adjacentScanAtoms_allvalid (validate : MolState → Bool)
    (findPaths : MolState → Nat → List AdjPath)
    (hv : ∀ m, validate m = true) (atoms : List Nat) (st : MolState)
    (isomers : List MolState) :
    adjacentScanAtoms validate findPaths atoms st isomers =
      (st, Except.ok (isomers ++ (atoms.map (fun i =>
        (findPaths st i).map (fun p => adjacentMutation p st))).flatten)) := by
  induction atoms generalizing isomers with
  | nil => simp [adjacentScanAtoms]
  | cons i rest ih =>
    simp only [adjacentScanAtoms,
      adjacentProcessPaths_allvalid validate hv]
    rw [ih]
    simp

theorem lonePairProcessPaths_allvalid (cf : ChargeFn) (ends : BondEnds)
    (validate : MolState → Bool) (hv : ∀ m, validate m = true)
    (ps : List LonePairPath) (st : MolState) (isomers : List MolState)
    (hcons : chargeConsistent cf ends st)
    (hne : ∀ p ∈ ps, p.atom1 ≠ p.atom2) :
    lonePairProcessPaths cf ends validate ps st isomers =
      (st, Except.ok (isomers ++
        ps.map (fun p => lonePairMutation cf ends p st))) := by
  induction ps generalizing isomers with
  | nil => simp [lonePairProcessPaths]
  | cons p rest ih =>
    have hrt : lonePairRestore cf ends p (lonePairMutation cf ends p st) =
        st :=
      lonePairRoundtrip cf ends p st (hne p (List.mem_cons_self p rest))
        (hcons p.atom1) (hcons p.atom2)
    simp only [lonePairProcessPaths, hrt, hv, if_true]
    rw [ih _ (fun q hq => hne q (List.mem_cons_of_mem p hq))]
    simp

theorem lonePairScanAtoms_allvalid (cf : ChargeFn) (ends : BondEnds)
    (validate : MolState → Bool)
    (findPaths : MolState → Nat → List LonePairPath)
    (hv : ∀ m, validate m = true) (atoms : List Nat) (st : MolState)
    (isomers : List MolState) (hcons : chargeConsistent cf ends st)
    (hne : ∀ i, ∀ p ∈ findPaths st i, p.atom1 ≠ p.atom2) :
    lonePairScanAtoms cf ends validate findPaths atoms st isomers =
      (st, Except.ok (isomers ++ (atoms.map (fun i =>
        (findPaths st i).map (fun p => lonePairMutation cf ends p st))).flatten))
    := by
  induction atoms generalizing isomers with
  | nil => simp [lonePairScanAtoms]
  | cons i rest ih =>
    simp only [lonePairScanAtoms,
      lonePairProcessPaths_allvalid cf ends validate hv _ st isomers hcons
        (hne i)]
    rw [ih]
    simp

theorem n5ProcessPath_allvalid (cf : ChargeFn) (ends : BondEnds)
    (validate : MolState → Bool) (hv : ∀ m, validate m = true)
    (p : N5Path) (st : MolState) (isomers : List MolState)
    (hcons : chargeConsistent cf ends st)
    (hne : p.atom1 ≠ p.atom2 ∧ p.atom1 ≠ p.atom3 ∧ p.atom2 ≠ p.atom3) :
    n5ProcessPath cf ends validate p st isomers =
      (st, Except.ok (isomers ++ n5PathCandidates cf ends p st)) := by
  have hrt1 : n5Restore cf ends p (n5Direction1Mutation cf ends p st) =
      st :=
    n5Roundtrip1 cf ends p st hne.1 hne.2.1 hne.2.2 (hcons p.atom1)
      (hcons p.atom2) (hcons p.atom3)
  have hrt2 : n5Restore cf ends p (n5Direction2Mutation cf ends p st) =
      st :=
    n5Roundtrip2 cf ends p st hne.1 hne.2.1 hne.2.2 (hcons p.atom1)
      (hcons p.atom2) (hcons p.atom3)
  unfold n5ProcessPath n5PathCandidates
  by_cases hd1 : p.direction = 1
  · have hd2 : ¬ p.direction = 2 := by omega
    simp [hd1, hd2, hrt1, hv]
  · by_cases hd2 : p.direction = 2
    · simp [hd1, hd2, hrt2, hv]
    · simp [hd1, hd2]

theorem n5ProcessPaths_allvalid (cf : ChargeFn) (ends : BondEnds)
    (validate : MolState → Bool) (hv : ∀ m, validate m = true)
    (ps : List N5Path) (st : MolState) (isomers : List MolState)
    (hcons : chargeConsistent cf ends st)
    (hne : ∀ p ∈ ps,
      p.atom1 ≠ p.atom2 ∧ p.atom1 ≠ p.atom3 ∧ p.atom2 ≠ p.atom3) :
    n5ProcessPaths cf ends validate ps st isomers =
      (st, Except.ok (isomers ++
        (ps.map (fun p => n5PathCandidates cf ends p st)).flatten)) := by
  induction ps generalizing isomers with
  | nil => simp [n5ProcessPaths]
  | cons p rest ih =>
    simp only [n5ProcessPaths,
      n5ProcessPath_allvalid cf ends validate hv p st isomers hcons
        (hne p (List.mem_cons_self p rest))]
    rw [ih _ (fun q hq => hne q (List.mem_cons_of_mem p hq))]
    simp

theorem n5ScanAtoms_allvalid (cf : ChargeFn) (ends : BondEnds)
    (validate : MolState → Bool)
    (findPaths : MolState → Nat → List N5Path)
    (hv : ∀ m, validate m = true) (atoms : List Nat) (st : MolState)
    (isomers : List MolState) (hcons : chargeConsistent cf ends st)
    (hne : ∀ i, ∀ p ∈ findPaths st i,
      p.atom1 ≠ p.atom2 ∧ p.atom1 ≠ p.atom3 ∧ p.atom2 ≠ p.atom3) :
    n5ScanAtoms cf ends validate findPaths atoms st isomers =
      (st, Except.ok (isomers ++ (atoms.map (fun i =>
        ((findPaths st i).map (fun p => n5PathCandidates cf ends p st)).flatten)).flatten))
    := by
  induction atoms generalizing isomers with
  | nil => simp [n5ScanAtoms]
  | cons i rest ih =>
    simp only [n5ScanAtoms,
      n5ProcessPaths_allvalid cf ends validate hv _ st isomers hcons
        (hne i)]
    rw [ih]
    simp

theorem n5ScanAtoms_noPaths (cf : ChargeFn) (ends : BondEnds)
    (validate : MolState → Bool)
    (findPaths : MolState → Nat → List N5Path)
    (hz : ∀ s i, findPaths s i = []) (atoms : List Nat) (st : MolState)
    (isomers : List MolState) :
    n5ScanAtoms cf ends validate findPaths atoms st isomers =
      (st, Except.ok isomers) := by
  induction atoms with
  | nil => rfl
  | cons i rest ih =>
    simp only [n5ScanAtoms, hz, n5ProcessPaths]
    exact ih

/-- Claim C3, amended: the three move appliers raise no exception of
their own — an ineligible input yields an empty sequence, and when every
candidate passes atom-type revalidation they return normally with every
candidate kept — but a candidate that fails revalidation makes the
unguarded revalidation error escape the applier, and that candidate is
not kept. -/
theorem claim3_appliers_amended (cf : ChargeFn) (ends : BondEnds)
    (validate : MolState → Bool)
    (findAdj : MolState → Nat → List AdjPath)
    (findLP : MolState → Nat → List LonePairPath)
    (findN5 : MolState → Nat → List N5Path)
    (findN5z : MolState → Nat → List N5Path) (st st2 st3 : MolState)
    (hv : ∀ m, validate m = true)
    (hradical : isRadical st = true)
    (hcons : chargeConsistent cf ends st)
    (hlp : ∀ i, ∀ p ∈ findLP st i, p.atom1 ≠ p.atom2)
    (hn5 : ∀ i, ∀ p ∈ findN5 st i,
      p.atom1 ≠ p.atom2 ∧ p.atom1 ≠ p.atom3 ∧ p.atom2 ≠ p.atom3)
    (hrad : isRadical st2 = false)
    (hz : ∀ s i, findN5z s i = []) :
    (generateAdjacentResonanceStructures validate findAdj st).2 =
      Except.ok (adjacentCandidates findAdj st) ∧
    (generateLonePairRadicalResonanceStructures cf ends validate findLP
      st).2 = Except.ok (lonePairCandidates cf ends findLP st) ∧
    (generateN5dd_N5tsResonanceStructures cf ends validate findN5 st).2 =
      Except.ok (n5Candidates cf ends findN5 st) ∧
    generateAdjacentResonanceStructures validate findAdj st2 =
      (st2, Except.ok []) ∧
    generateLonePairRadicalResonanceStructures cf ends validate findLP
      st2 = (st2, Except.ok []) ∧
    generateN5dd_N5tsResonanceStructures cf ends validate findN5z st3 =
      (st3, Except.ok []) := by
  refine ⟨?_, ?_, ?_, ?_, ?_, ?_⟩
  · unfold generateAdjacentResonanceStructures
    simp only [hradical, if_true,
      adjacentScanAtoms_allvalid validate findAdj hv]
    simp [adjacentCandidates]
  · unfold generateLonePairRadicalResonanceStructures
    simp only [hradical, if_true,
      lonePairScanAtoms_allvalid cf ends validate findLP hv _ st []
        hcons hlp]
    simp [lonePairCandidates]
  · unfold generateN5dd_N5tsResonanceStructures
    simp only [n5ScanAtoms_allvalid cf ends validate findN5 hv _ st []
      hcons hn5]
    simp [n5Candidates]
  · unfold generateAdjacentResonanceStructures
    simp [hrad]
  · unfold generateLonePairRadicalResonanceStructures
    simp [hrad]
  · unfold generateN5dd_N5tsResonanceStructures
    exact n5ScanAtoms_noPaths cf ends validate findN5z hz _ st3 []

/-- Witness for the amended C3: the charge-consistent radical molecule of
the C4 witness with an always-succeeding revalidation, a non-radical
molecule, and a path finder with no eligible paths. -/
theorem claim3_appliers_amended_witness :
    (∀ m : MolState, (fun (_ : MolState) => true) m = true) ∧
    isRadical ⟨[1, 0, 0], [0, 1, 0], [5, 0, 4], [2, 4]⟩ = true ∧
    chargeConsistent
      (fun i rad lp osum => ([8, 8, 8].getD i 0 : Int) - rad - 2 * lp - osum)
      [(0, 1), (1, 2)]
      ⟨[1, 0, 0], [0, 1, 0], [5, 0, 4], [2, 4]⟩ ∧
    isRadical ⟨[0], [0], [0], []⟩ = false ∧
    (∀ (s : MolState) (i : Nat),
      (fun (_ : MolState) (_ : Nat) => ([] : List N5Path)) s i = []) ∧
    (generateAdjacentResonanceStructures (fun _ => true)
      (fun _ i => if i = 0 then [(⟨0, 1, 2, 0, 1⟩ : AdjPath)] else [])
      ⟨[1, 0, 0], [0, 1, 0], [5, 0, 4], [2, 4]⟩).2 =
      Except.ok (adjacentCandidates
        (fun _ i => if i = 0 then [(⟨0, 1, 2, 0, 1⟩ : AdjPath)] else [])
        ⟨[1, 0, 0], [0, 1, 0], [5, 0, 4], [2, 4]⟩) ∧
    (generateLonePairRadicalResonanceStructures
      (fun i rad lp osum => ([8, 8, 8].getD i 0 : Int) - rad - 2 * lp - osum)
      [(0, 1), (1, 2)] (fun _ => true)
      (fun _ i => if i = 0 then [(⟨0, 1⟩ : LonePairPath)] else [])
      ⟨[1, 0, 0], [0, 1, 0], [5, 0, 4], [2, 4]⟩).2 =
      Except.ok (lonePairCandidates
        (fun i rad lp osum => ([8, 8, 8].getD i 0 : Int) - rad - 2 * lp - osum)
        [(0, 1), (1, 2)]
        (fun _ i => if i = 0 then [(⟨0, 1⟩ : LonePairPath)] else [])
        ⟨[1, 0, 0], [0, 1, 0], [5, 0, 4], [2, 4]⟩) ∧
    (generateN5dd_N5tsResonanceStructures
      (fun i rad lp osum => ([8, 8, 8].getD i 0 : Int) - rad - 2 * lp - osum)
      [(0, 1), (1, 2)] (fun _ => true)
      (fun _ i => if i = 0 then [(⟨0, 1, 2, 0, 1, 2⟩ : N5Path)] else [])
      ⟨[1, 0, 0], [0, 1, 0], [5, 0, 4], [2, 4]⟩).2 =
      Except.ok (n5Candidates
        (fun i rad lp osum => ([8, 8, 8].getD i 0 : Int) - rad - 2 * lp - osum)
        [(0, 1), (1, 2)]
        (fun _ i => if i = 0 then [(⟨0, 1, 2, 0, 1, 2⟩ : N5Path)] else [])
        ⟨[1, 0, 0], [0, 1, 0], [5, 0, 4], [2, 4]⟩) ∧
    generateAdjacentResonanceStructures (fun _ => true)
      (fun _ i => if i = 0 then [(⟨0, 1, 2, 0, 1⟩ : AdjPath)] else [])
      ⟨[0], [0], [0], []⟩ = (⟨[0], [0], [0], []⟩, Except.ok []) ∧
    generateLonePairRadicalResonanceStructures
      (fun i rad lp osum => ([8, 8, 8].getD i 0 : Int) - rad - 2 * lp - osum)
      [(0, 1), (1, 2)] (fun _ => true)
      (fun _ i => if i = 0 then [(⟨0, 1⟩ : LonePairPath)] else [])
      ⟨[0], [0], [0], []⟩ = (⟨[0], [0], [0], []⟩, Except.ok []) ∧
    generateN5dd_N5tsResonanceStructures
      (fun i rad lp osum => ([8, 8, 8].getD i 0 : Int) - rad - 2 * lp - osum)
      [(0, 1), (1, 2)] (fun _ => true)
      (fun _ _ => ([] : List N5Path))
      ⟨[1, 0, 0], [0, 1, 0], [5, 0, 4], [2, 4]⟩ =
      (⟨[1, 0, 0], [0, 1, 0], [5, 0, 4], [2, 4]⟩, Except.ok []) := by
  have hcons : chargeConsistent
      (fun i rad lp osum => ([8, 8, 8].getD i 0 : Int) - rad - 2 * lp - osum)
      [(0, 1), (1, 2)]
      ⟨[1, 0, 0], [0, 1, 0], [5, 0, 4], [2, 4]⟩ := by
    intro i
    rcases i with _ | _ | _ | n
    · decide
    · decide
    · decide
    · rfl
  have hlp : ∀ i, ∀ p ∈ (fun (_ : MolState) (i : Nat) =>
      if i = 0 then [(⟨0, 1⟩ : LonePairPath)] else [])
      (⟨[1, 0, 0], [0, 1, 0], [5, 0, 4], [2, 4]⟩ : MolState) i,
      p.atom1 ≠ p.atom2 := by
    intro i p hp
    by_cases hi : i = 0
    · subst hi
      simp only [if_true] at hp
      rw [List.mem_singleton.mp hp]
      decide
    · simp [hi] at hp
  have hn5 : ∀ i, ∀ p ∈ (fun (_ : MolState) (i : Nat) =>
      if i = 0 then [(⟨0, 1, 2, 0, 1, 2⟩ : N5Path)] else [])
      (⟨[1, 0, 0], [0, 1, 0], [5, 0, 4], [2, 4]⟩ : MolState) i,
      p.atom1 ≠ p.atom2 ∧ p.atom1 ≠ p.atom3 ∧ p.atom2 ≠ p.atom3 := by
    intro i p hp
    by_cases hi : i = 0
    · subst hi
      simp only [if_true] at hp
      rw [List.mem_singleton.mp hp]
      exact ⟨by decide, by decide, by decide⟩
    · simp [hi] at hp
  have hmain := claim3_appliers_amended
    (fun i rad lp osum => ([8, 8, 8].getD i 0 : Int) - rad - 2 * lp - osum)
    [(0, 1), (1, 2)] (fun _ => true)
    (fun _ i => if i = 0 then [(⟨0, 1, 2, 0, 1⟩ : AdjPath)] else [])
    (fun _ i => if i = 0 then [(⟨0, 1⟩ : LonePairPath)] else [])
    (fun _ i => if i = 0 then [(⟨0, 1, 2, 0, 1, 2⟩ : N5Path)] else [])
    (fun _ _ => ([] : List N5Path))
    ⟨[1, 0, 0], [0, 1, 0], [5, 0, 4], [2, 4]⟩ ⟨[0], [0], [0], []⟩
    ⟨[1, 0, 0], [0, 1, 0], [5, 0, 4], [2, 4]⟩
    (fun _ => rfl) (by decide) hcons hlp hn5 (by decide)
    (fun _ _ => rfl)
  exact ⟨fun _ => rfl, by decide, hcons, by decide, fun _ _ => rfl,
    hmain.1, hmain.2.1, hmain.2.2.1, hmain.2.2.2.1, hmain.2.2.2.2.1,
    hmain.2.2.2.2.2⟩

/-!
Claim C7: the opposite-Kekule generator.
-/

/-- The inverted ring: every ring bond of `st` flipped single-to-double
or double-to-single (orders are doubled: `2` is single, `4` double),
written over `X`. -/
def flipWrite (ring : List Nat) (st X : MolState) : MolState :=
  ring.foldl
    (fun s j => setOrder s j (if st.order.getD j 0 = 2 then 4 else 2)) X

theorem flipRingBonds_spec (st : MolState) : ∀ (ring : List Nat)
    (X : MolState) (a b : Nat), ring.Nodup →
    (∀ j ∈ ring, st.order.getD j 0 = 2 ∨ st.order.getD j 0 = 4) →
    (∀ j ∈ ring, X.order.getD j 0 = st.order.getD j 0) →
    flipRingBonds ring a b X =
      some (a + ring.countP (fun j => st.order.getD j 0 == 2),
        b + ring.countP (fun j => st.order.getD j 0 == 4),
        flipWrite ring st X) := by
  intro ring
  induction ring with
  | nil =>
    intro X a b _ _ _
    simp [flipRingBonds, flipWrite]
  | cons j rest ih =>
    intro X a b hnd hvals hagree
    have hjX : X.order.getD j 0 = st.order.getD j 0 :=
      hagree j (List.mem_cons_self j rest)
    have hnd2 : rest.Nodup := (List.nodup_cons.mp hnd).2
    have hjrest : j ∉ rest := (List.nodup_cons.mp hnd).1
    have hagree2 : ∀ v : Int, ∀ k ∈ rest,
        (setOrder X j v).order.getD k 0 = st.order.getD k 0 := by
      intro v k hk
      have hkj : j ≠ k := fun hh => hjrest (hh ▸ hk)
      simp only [setOrder]
      rw [getD_updAt_ne X.order j k _ 0 hkj]
      exact hagree k (List.mem_cons_of_mem j hk)
    rcases hvals j (List.mem_cons_self j rest) with ho | ho
    · have hcount2 : (j :: rest).countP
          (fun k => st.order.getD k 0 == 2) =
          rest.countP (fun k => st.order.getD k 0 == 2) + 1 :=
        List.countP_cons_of_pos _ _
          (by show (st.order.getD j 0 == 2) = true; rw [ho]; decide)
      have hcount4 : (j :: rest).countP
          (fun k => st.order.getD k 0 == 4) =
          rest.countP (fun k => st.order.getD k 0 == 4) :=
        List.countP_cons_of_neg _ _
          (by show ¬ (st.order.getD j 0 == 4) = true; rw [ho]; decide)
      have hflip : flipWrite (j :: rest) st X =
          flipWrite rest st (setOrder X j 4) := by
        simp only [flipWrite, List.foldl_cons, ho]
        norm_num
      have hstep : flipRingBonds (j :: rest) a b X =
          flipRingBonds rest (a + 1) b (setOrder X j 4) := by
        simp only [flipRingBonds]
        rw [hjX, ho]
        norm_num
      rw [hstep, ih (setOrder X j 4) (a + 1) b hnd2
        (fun k hk => hvals k (List.mem_cons_of_mem j hk)) (hagree2 4)]
      rw [hcount2, hcount4, hflip]
      have harith : a + 1 + rest.countP (fun k => st.order.getD k 0 == 2) =
          a + (rest.countP (fun k => st.order.getD k 0 == 2) + 1) := by
        omega
      rw [harith]
    · have hcount2 : (j :: rest).countP
          (fun k => st.order.getD k 0 == 2) =
          rest.countP (fun k => st.order.getD k 0 == 2) :=
        List.countP_cons_of_neg _ _
          (by show ¬ (st.order.getD j 0 == 2) = true; rw [ho]; decide)
      have hcount4 : (j :: rest).countP
          (fun k => st.order.getD k 0 == 4) =
          rest.countP (fun k => st.order.getD k 0 == 4) + 1 :=
        List.countP_cons_of_pos _ _
          (by show (st.order.getD j 0 == 4) = true; rw [ho]; decide)
      have hflip : flipWrite (j :: rest) st X =
          flipWrite rest st (setOrder X j 2) := by
        simp only [flipWrite, List.foldl_cons, ho]
        norm_num
      have hstep : flipRingBonds (j :: rest) a b X =
          flipRingBonds rest a (b + 1) (setOrder X j 2) := by
        simp only [flipRingBonds]
        rw [hjX, ho]
        norm_num
      rw [hstep, ih (setOrder X j 2) a (b + 1) hnd2
        (fun k hk => hvals k (List.mem_cons_of_mem j hk)) (hagree2 2)]
      rw [hcount2, hcount4, hflip]
      have harith : b + 1 + rest.countP (fun k => st.order.getD k 0 == 4) =
          b + (rest.countP (fun k => st.order.getD k 0 == 4) + 1) := by
        omega
      rw [harith]

theorem flipRingBonds_bad (st : MolState) : ∀ (ring : List Nat)
    (X : MolState) (a b : Nat), ring.Nodup →
    (∀ j ∈ ring, X.order.getD j 0 = st.order.getD j 0) →
    (∃ j ∈ ring, ¬ (st.order.getD j 0 = 2 ∨ st.order.getD j 0 = 4)) →
    flipRingBonds ring a b X = none := by
  intro ring
  induction ring with
  | nil =>
    intro X a b _ _ hbad
    simp at hbad
  | cons j rest ih =>
    intro X a b hnd hagree hbad
    have hjX : X.order.getD j 0 = st.order.getD j 0 :=
      hagree j (List.mem_cons_self j rest)
    have hnd2 : rest.Nodup := (List.nodup_cons.mp hnd).2
    have hjrest : j ∉ rest := (List.nodup_cons.mp hnd).1
    have hagree2 : ∀ v : Int, ∀ k ∈ rest,
        (setOrder X j v).order.getD k 0 = st.order.getD k 0 := by
      intro v k hk
      have hkj : j ≠ k := fun hh => hjrest (hh ▸ hk)
      simp only [setOrder]
      rw [getD_updAt_ne X.order j k _ 0 hkj]
      exact hagree k (List.mem_cons_of_mem j hk)
    by_cases hj2 : st.order.getD j 0 = 2
    · have hbad2 : ∃ k ∈ rest,
          ¬ (st.order.getD k 0 = 2 ∨ st.order.getD k 0 = 4) := by
        rcases hbad with ⟨k, hk, hkbad⟩
        rcases List.mem_cons.mp hk with hkj | hkr
        · exact absurd (Or.inl (hkj ▸ hj2)) hkbad
        · exact ⟨k, hkr, hkbad⟩
      have hstep : flipRingBonds (j :: rest) a b X =
          flipRingBonds rest (a + 1) b (setOrder X j 4) := by
        simp only [flipRingBonds]
        rw [hjX, hj2]
        norm_num
      rw [hstep]
      exact ih (setOrder X j 4) (a + 1) b hnd2 (hagree2 4) hbad2
    · by_cases hj4 : st.order.getD j 0 = 4
      · have hbad2 : ∃ k ∈ rest,
            ¬ (st.order.getD k 0 = 2 ∨ st.order.getD k 0 = 4) := by
          rcases hbad with ⟨k, hk, hkbad⟩
          rcases List.mem_cons.mp hk with hkj | hkr
          · exact absurd (Or.inr (hkj ▸ hj4)) hkbad
          · exact ⟨k, hkr, hkbad⟩
        have hstep : flipRingBonds (j :: rest) a b X =
            flipRingBonds rest a (b + 1) (setOrder X j 2) := by
          simp only [flipRingBonds]
          rw [hjX, hj4]
          norm_num
        rw [hstep]
        exact ih (setOrder X j 2) a (b + 1) hnd2 (hagree2 2) hbad2
      · have hstep : flipRingBonds (j :: rest) a b X = none := by
          simp only [flipRingBonds]
          rw [hjX]
          rw [if_neg hj2, if_neg hj4]
        exact hstep

set_option linter.unusedVariables false in
/-- Claim C7: on a non-aromatic-form molecule with exactly one aromatic
ring whose six ring bonds are exactly three singles and three doubles,
`generateOppositeKekuleStructure` returns exactly one structure with
those ring-bond orders inverted; it returns the empty list when some
ring bond is neither single nor double, when the aromatic ring count is
not one, or when the input is in aromatic form.  (The one kept structure
must also pass the external atom-type revalidation, as the source
requires.) -/
theorem claim7_opposite_kekule (validate validate2 : MolState → Bool)
    (st st2 st3 st4 : MolState) (ring ring2 : List Nat)
    (rings3 : List (List Nat)) (bonds4 : List (List Nat))
    (hnd : ring.Nodup) (hlen6 : ring.length = 6)
    (hvals : ∀ j ∈ ring, st.order.getD j 0 = 2 ∨ st.order.getD j 0 = 4)
    (hc2 : ring.countP (fun j => st.order.getD j 0 == 2) = 3)
    (hc4 : ring.countP (fun j => st.order.getD j 0 == 4) = 3)
    (hok : validate (flipWrite ring st st) = true)
    (hnd2 : ring2.Nodup)
    (hbad : ∃ j ∈ ring2,
      ¬ (st2.order.getD j 0 = 2 ∨ st2.order.getD j 0 = 4))
    (hn3 : rings3.length ≠ 1) :
    generateOppositeKekuleStructure false [ring] validate st =
      [flipWrite ring st st] ∧
    generateOppositeKekuleStructure false [ring2] validate2 st2 = [] ∧
    generateOppositeKekuleStructure false rings3 validate2 st3 = [] ∧
    generateOppositeKekuleStructure true bonds4 validate2 st4 = [] := by
  refine ⟨?_, ?_, ?_, ?_⟩
  · unfold generateOppositeKekuleStructure
    rw [if_neg (by decide)]
    rw [if_neg (by simp)]
    simp only [List.headD]
    rw [flipRingBonds_spec st ring st 0 0 hnd hvals (fun _ _ => rfl)]
    simp only [Nat.zero_add, hc2, hc4]
    rw [if_neg (by simp)]
    rw [if_pos hok]
  · unfold generateOppositeKekuleStructure
    rw [if_neg (by decide)]
    rw [if_neg (by simp)]
    simp only [List.headD]
    rw [flipRingBonds_bad st2 ring2 st2 0 0 hnd2 (fun _ _ => rfl) hbad]
  · unfold generateOppositeKekuleStructure
    rw [if_neg (by decide)]
    rw [if_pos hn3]
  · unfold generateOppositeKekuleStructure
    rw [if_pos rfl]

/-- Witness for C7: a concrete benzene-like six-ring with alternating
single/double bonds, a ring with a benzene-order bond, a two-ring input,
and an aromatic-form input. -/
theorem claim7_opposite_kekule_witness :
    ([0, 1, 2, 3, 4, 5] : List Nat).Nodup ∧
    ([0, 1, 2, 3, 4, 5] : List Nat).length = 6 ∧
    (∀ j ∈ ([0, 1, 2, 3, 4, 5] : List Nat),
      (⟨[], [], [], [2, 4, 2, 4, 2, 4]⟩ : MolState).order.getD j 0 = 2 ∨
      (⟨[], [], [], [2, 4, 2, 4, 2, 4]⟩ : MolState).order.getD j 0 = 4) ∧
    ([0, 1, 2, 3, 4, 5] : List Nat).countP
      (fun j => (⟨[], [], [], [2, 4, 2, 4, 2, 4]⟩ :
        MolState).order.getD j 0 == 2) = 3 ∧
    ([0, 1, 2, 3, 4, 5] : List Nat).countP
      (fun j => (⟨[], [], [], [2, 4, 2, 4, 2, 4]⟩ :
        MolState).order.getD j 0 == 4) = 3 ∧
    (∃ j ∈ ([0] : List Nat),
      ¬ ((⟨[], [], [], [3]⟩ : MolState).order.getD j 0 = 2 ∨
        (⟨[], [], [], [3]⟩ : MolState).order.getD j 0 = 4)) ∧
    generateOppositeKekuleStructure false [[0, 1, 2, 3, 4, 5]]
      (fun _ => true) ⟨[], [], [], [2, 4, 2, 4, 2, 4]⟩ =
      [flipWrite [0, 1, 2, 3, 4, 5] ⟨[], [], [], [2, 4, 2, 4, 2, 4]⟩
        ⟨[], [], [], [2, 4, 2, 4, 2, 4]⟩] ∧
    generateOppositeKekuleStructure false [[0]] (fun _ => true)
      ⟨[], [], [], [3]⟩ = [] ∧
    generateOppositeKekuleStructure false [[0], [1]] (fun _ => true)
      ⟨[], [], [], [2, 4]⟩ = [] ∧
    generateOppositeKekuleStructure true [[0, 1, 2, 3, 4, 5]]
      (fun _ => true) ⟨[], [], [], [2, 4, 2, 4, 2, 4]⟩ = [] := by
  have hmain := claim7_opposite_kekule (fun _ => true) (fun _ => true)
    ⟨[], [], [], [2, 4, 2, 4, 2, 4]⟩ ⟨[], [], [], [3]⟩
    ⟨[], [], [], [2, 4]⟩ ⟨[], [], [], [2, 4, 2, 4, 2, 4]⟩
    [0, 1, 2, 3, 4, 5] [0] [[0], [1]] [[0, 1, 2, 3, 4, 5]]
    (by decide) (by decide) (by decide) (by decide) (by decide)
    (by decide) (by decide) (by decide) (by decide)
  exact ⟨by decide, by decide, by decide, by decide, by decide, by decide,
    hmain.1, hmain.2.1, hmain.2.2.1, hmain.2.2.2⟩

/-!
Claim C8: the ring-by-ring retry loop of the aromatic reconciler.
-/

theorem promoteRing_cons (j : Nat) (rest : List Nat) (st : MolState) :
    promoteRing (j :: rest) st = promoteRing rest (setOrder st j 3) := rfl

theorem promoteRing_fields (ring : List Nat) : ∀ st : MolState,
    (promoteRing ring st).radical = st.radical ∧
    (promoteRing ring st).lonePairs = st.lonePairs ∧
    (promoteRing ring st).charge = st.charge ∧
    (promoteRing ring st).order.length = st.order.length := by
  induction ring with
  | nil => intro st; exact ⟨rfl, rfl, rfl, rfl⟩
  | cons j rest ih =>
    intro st
    have h := ih (setOrder st j 3)
    refine ⟨?_, ?_, ?_, ?_⟩
    · rw [promoteRing_cons, h.1]; rfl
    · rw [promoteRing_cons, h.2.1]; rfl
    · rw [promoteRing_cons, h.2.2.1]; rfl
    · rw [promoteRing_cons, h.2.2.2]
      simp [setOrder, length_updAt]

theorem promoteRings_fields (rings : List (List Nat)) : ∀ st : MolState,
    (promoteRings rings st).radical = st.radical ∧
    (promoteRings rings st).lonePairs = st.lonePairs ∧
    (promoteRings rings st).charge = st.charge ∧
    (promoteRings rings st).order.length = st.order.length := by
  induction rings with
  | nil => intro st; exact ⟨rfl, rfl, rfl, rfl⟩
  | cons r rest ih =>
    intro st
    have h1 := promoteRing_fields r st
    have h2 := ih (promoteRing r st)
    exact ⟨h2.1.trans h1.1, h2.2.1.trans h1.2.1, h2.2.2.1.trans h1.2.2.1,
      h2.2.2.2.trans h1.2.2.2⟩

theorem restoreOrders_fields : ∀ (ring : List Nat) (os : List Int)
    (st : MolState),
    (restoreOrders ring os st).radical = st.radical ∧
    (restoreOrders ring os st).lonePairs = st.lonePairs ∧
    (restoreOrders ring os st).charge = st.charge ∧
    (restoreOrders ring os st).order.length = st.order.length := by
  intro ring
  induction ring with
  | nil => intro os st; exact ⟨rfl, rfl, rfl, rfl⟩
  | cons j rest ih =>
    intro os st
    cases os with
    | nil => exact ⟨rfl, rfl, rfl, rfl⟩
    | cons o os2 =>
      have h := ih os2 (setOrder st j o)
      refine ⟨h.1, h.2.1, h.2.2.1, ?_⟩
      rw [show restoreOrders (j :: rest) (o :: os2) st =
        restoreOrders rest os2 (setOrder st j o) from rfl, h.2.2.2]
      simp [setOrder, length_updAt]

theorem savePromote_snd (ring : List Nat) : ∀ st : MolState,
    (savePromote ring st).2 = promoteRing ring st := by
  induction ring with
  | nil => intro st; rfl
  | cons j rest ih =>
    intro st
    rw [promoteRing_cons]
    exact ih (setOrder st j 3)

theorem promoteRing_setOrder_comm (j : Nat) (v : Int) :
    ∀ (ring : List Nat), j ∉ ring → ∀ st : MolState,
    promoteRing ring (setOrder st j v) =
      setOrder (promoteRing ring st) j v := by
  intro ring
  induction ring with
  | nil => intro _ st; rfl
  | cons k rest ih =>
    intro hj st
    have hk : j ≠ k := fun h => hj (h ▸ List.mem_cons_self k rest)
    have hrest : j ∉ rest := fun h => hj (List.mem_cons_of_mem k h)
    rw [promoteRing_cons, promoteRing_cons]
    rw [show setOrder (setOrder st j v) k 3 =
        setOrder (setOrder st k 3) j v by
      simp only [setOrder]
      rw [updAt_comm st.order j k _ _ hk]]
    exact ih hrest (setOrder st k 3)

theorem savePromote_fst_eq (st : MolState) : ∀ (ring : List Nat)
    (X : MolState), ring.Nodup →
    (∀ k ∈ ring, X.order.getD k 0 = st.order.getD k 0) →
    (savePromote ring X).1 = ring.map (fun k => st.order.getD k 0) := by
  intro ring
  induction ring with
  | nil => intro X _ _; rfl
  | cons j rest ih =>
    intro X hnd hagree
    have hjrest : j ∉ rest := (List.nodup_cons.mp hnd).1
    have hnd2 : rest.Nodup := (List.nodup_cons.mp hnd).2
    show (X.order.getD j 0 :: (savePromote rest (setOrder X j 3)).1) = _
    rw [hagree j (List.mem_cons_self j rest)]
    rw [ih (setOrder X j 3) hnd2 ?_]
    · rfl
    · intro k hk
      have hkj : j ≠ k := fun hh => hjrest (hh ▸ hk)
      simp only [setOrder]
      rw [getD_updAt_ne X.order j k _ 0 hkj]
      exact hagree k (List.mem_cons_of_mem j hk)

theorem setOrder_getD_self (st : MolState) (j : Nat) :
    setOrder st j (st.order.getD j 0) = st := by
  obtain ⟨R, L, C, O⟩ := st
  simp only [setOrder]
  rw [updAt_getD_self]

/-- The failure branch of the retry loop undoes the ring promotion
exactly: restoring the saved orders over the promoted state gives back
the original state. -/
theorem savePromote_restore (st : MolState) : ∀ (ring : List Nat),
    ring.Nodup →
    restoreOrders ring (savePromote ring st).1 (savePromote ring st).2 =
      st := by
  intro ring
  induction ring with
  | nil => intro _; rfl
  | cons j rest ih =>
    intro hnd
    have hjrest : j ∉ rest := (List.nodup_cons.mp hnd).1
    have hnd2 : rest.Nodup := (List.nodup_cons.mp hnd).2
    show restoreOrders rest (savePromote rest (setOrder st j 3)).1
      (setOrder (savePromote rest (setOrder st j 3)).2 j
        (st.order.getD j 0)) = st
    rw [savePromote_snd rest (setOrder st j 3)]
    rw [← promoteRing_setOrder_comm j (st.order.getD j 0) rest hjrest
      (setOrder st j 3)]
    rw [show setOrder (setOrder st j 3) j (st.order.getD j 0) =
        setOrder st j (st.order.getD j 0) by
      simp only [setOrder]
      rw [updAt_overwrite]]
    rw [setOrder_getD_self]
    rw [savePromote_fst_eq st rest (setOrder st j 3) hnd2 ?_]
    · rw [← savePromote_fst_eq st rest st hnd2 (fun _ _ => rfl),
        ← savePromote_snd rest st]
      exact ih hnd2
    · intro k hk
      have hkj : j ≠ k := fun hh => hjrest (hh ▸ hk)
      simp only [setOrder]
      rw [getD_updAt_ne st.order j k _ 0 hkj]

theorem promoteRing_getD : ∀ (ring : List Nat) (X : MolState) (j : Nat),
    (promoteRing ring X).order.getD j 0 =
      if j ∈ ring ∧ j < X.order.length then 3 else X.order.getD j 0 := by
  intro ring
  induction ring with
  | nil =>
    intro X j
    simp [promoteRing]
  | cons k rest ih =>
    intro X j
    rw [promoteRing_cons, ih]
    have hlen : (setOrder X k 3).order.length = X.order.length := by
      simp [setOrder, length_updAt]
    rw [hlen]
    simp only [setOrder]
    rw [getD_updAt]
    by_cases hj : j < X.order.length
    · by_cases hjr : j ∈ rest
      · simp [hj, hjr]
      · by_cases hjk : k = j
        · subst hjk
          simp [hj, hjr]
        · have : ¬ j ∈ k :: rest := by
            intro hmem
            rcases List.mem_cons.mp hmem with h1 | h1
            · exact hjk h1.symm
            · exact hjr h1
          simp [hj, hjr, hjk, this]
    · simp [hj]

theorem promoteRings_getD : ∀ (rings : List (List Nat)) (X : MolState)
    (j : Nat), (promoteRings rings X).order.getD j 0 =
      if (∃ ring ∈ rings, j ∈ ring) ∧ j < X.order.length then 3
      else X.order.getD j 0 := by
  intro rings
  induction rings with
  | nil =>
    intro X j
    simp [promoteRings]
  | cons r rest ih =>
    intro X j
    rw [show promoteRings (r :: rest) X =
      promoteRings rest (promoteRing r X) from rfl, ih]
    rw [(promoteRing_fields r X).2.2.2, promoteRing_getD]
    by_cases hj : j < X.order.length
    · by_cases hjr : ∃ ring ∈ rest, j ∈ ring
      · simp [hj, hjr]
      · by_cases hjk : j ∈ r
        · simp [hj, hjr, hjk]
        · have : ¬ ∃ ring ∈ r :: rest, j ∈ ring := by
            intro ⟨ring, hring, hjring⟩
            rcases List.mem_cons.mp hring with h1 | h1
            · exact hjk (h1 ▸ hjring)
            · exact hjr ⟨ring, h1, hjring⟩
          simp [hj, hjr, hjk, this]
    · simp [hj]

theorem restoreOrders_getD (st : MolState) : ∀ (ring : List Nat)
    (X : MolState), X.order.length = st.order.length → ∀ j,
    (restoreOrders ring (ring.map (fun k => st.order.getD k 0))
      X).order.getD j 0 =
      if j ∈ ring then st.order.getD j 0 else X.order.getD j 0 := by
  intro ring
  induction ring with
  | nil =>
    intro X _ j
    simp [restoreOrders]
  | cons k rest ih =>
    intro X hlen j
    have hlen2 : (setOrder X k (st.order.getD k 0)).order.length =
        st.order.length := by
      simp [setOrder, length_updAt, hlen]
    rw [show restoreOrders (k :: rest)
        ((k :: rest).map (fun k2 => st.order.getD k2 0)) X =
        restoreOrders rest (rest.map (fun k2 => st.order.getD k2 0))
          (setOrder X k (st.order.getD k 0)) from rfl]
    rw [ih _ hlen2 j]
    by_cases hjr : j ∈ rest
    · rw [if_pos hjr, if_pos (List.mem_cons_of_mem k hjr)]
    · simp only [setOrder]
      rw [getD_updAt]
      by_cases hkj : k = j
      · subst hkj
        by_cases hk : k < X.order.length
        · rw [if_neg hjr, if_pos ⟨rfl, hk⟩,
            if_pos (List.mem_cons_self k rest)]
      
        · have hst0 : st.order.getD k 0 = 0 := by
            apply List.getD_eq_default
            omega
          have hx0 : X.order.getD k 0 = 0 := by
            apply List.getD_eq_default
            omega
          have hcond : ¬ (k = k ∧ k < X.order.length) := by
            intro hh
            exact hk hh.2
          rw [if_neg hjr, if_neg hcond,
            if_pos (List.mem_cons_self k rest), hx0, hst0]
      · have hnm : ¬ j ∈ k :: rest := by
          intro hmem
          rcases List.mem_cons.mp hmem with h1 | h1
          · exact hkj h1.symm
          · exact hjr h1
        have hcond : ¬ (k = j ∧ j < X.order.length) := by
          intro hh
          exact hkj hh.1
        rw [if_neg hjr, if_neg hcond, if_neg hnm]

/-- The all-at-once restore of lines 510-512 exactly undoes the
all-at-once promotion of lines 501-503, even across rings that share
bonds, because every saved value was read before any promotion. -/
theorem restoreAll_promote (st : MolState) (rings : List (List Nat)) :
    restoreAllRings rings
      (rings.map (fun ring => ring.map (fun k => st.order.getD k 0)))
      (promoteRings rings st) = st := by
  suffices h : ∀ (rs : List (List Nat)) (X : MolState),
      X.radical = st.radical → X.lonePairs = st.lonePairs →
      X.charge = st.charge → X.order.length = st.order.length →
      (∀ j, (¬ ∃ ring ∈ rs, j ∈ ring) → X.order.getD j 0 =
        st.order.getD j 0) →
      restoreAllRings rs
        (rs.map (fun ring => ring.map (fun k => st.order.getD k 0))) X =
        st by
    refine h rings (promoteRings rings st) (promoteRings_fields rings st).1
      (promoteRings_fields rings st).2.1
      (promoteRings_fields rings st).2.2.1
      (promoteRings_fields rings st).2.2.2 ?_
    intro j hj
    rw [promoteRings_getD]
    simp [hj]
  intro rs
  induction rs with
  | nil =>
    intro X h1 h2 h3 h4 h5
    obtain ⟨R, L, C, O⟩ := X
    obtain ⟨R2, L2, C2, O2⟩ := st
    simp only at h1 h2 h3 h4 h5 ⊢
    subst h1; subst h2; subst h3
    simp only [restoreAllRings, MolState.mk.injEq, true_and]
    refine ext_getD 0 O O2 h4 ?_
    intro j
    have := h5 j (by simp)
    simpa using this
  | cons r rest ih =>
    intro X h1 h2 h3 h4 h5
    rw [show restoreAllRings (r :: rest)
        ((r :: rest).map (fun ring => ring.map (fun k =>
          st.order.getD k 0))) X =
        restoreAllRings rest (rest.map (fun ring => ring.map (fun k =>
          st.order.getD k 0)))
          (restoreOrders r (r.map (fun k => st.order.getD k 0)) X)
        from rfl]
    have hf := restoreOrders_fields r (r.map (fun k => st.order.getD k 0)) X
    refine ih _ (hf.1.trans h1) (hf.2.1.trans h2) (hf.2.2.1.trans h3)
      (hf.2.2.2.trans h4) ?_
    intro j hj
    rw [restoreOrders_getD st r X h4 j]
    by_cases hjr : j ∈ r
    · simp [hjr]
    · simp only [hjr, if_false]
      refine h5 j ?_
      intro ⟨ring, hring, hjring⟩
      rcases List.mem_cons.mp hring with hh | hh
      · exact hjr (hh ▸ hjring)
      · exact hj ⟨ring, hh, hjring⟩

/-- Invariant of the ring-by-ring retry loop: the queue keeps its length
and its rings, the scan index stays within the queue, the final attempt
counter is bounded by `max counter (2 * length)`, and the working state
is always the seed state with exactly the first `i` rings of the current
queue promoted — failed promotion attempts leave no trace. -/
theorem promoteRings_append_singleton (rs : List (List Nat))
    (r : List Nat) (st : MolState) :
    promoteRings (rs ++ [r]) st = promoteRing r (promoteRings rs st) := by
  simp only [promoteRings, List.foldl_append, List.foldl_cons,
    List.foldl_nil]

theorem aromaticRetryLoop_spec (validate : MolState → Bool)
    (st0 : MolState) : ∀ (n : Nat) (st : MolState)
    (queue : List (List Nat)) (i counter : Nat),
    2 * queue.length - counter ≤ n →
    (∀ ring ∈ queue, ring.Nodup) →
    i ≤ queue.length →
    st = promoteRings (queue.take i) st0 →
    ((aromaticRetryLoop validate st queue i counter).2.2.2 ≤
      max counter (2 * queue.length)) ∧
    ((aromaticRetryLoop validate st queue i counter).2.1.length =
      queue.length) ∧
    (∀ ring ∈ (aromaticRetryLoop validate st queue i counter).2.1,
      ring.Nodup) ∧
    ((aromaticRetryLoop validate st queue i counter).2.2.1 ≤
      (aromaticRetryLoop validate st queue i counter).2.1.length) ∧
    ((aromaticRetryLoop validate st queue i counter).1 =
      promoteRings
        ((aromaticRetryLoop validate st queue i counter).2.1.take
          (aromaticRetryLoop validate st queue i counter).2.2.1) st0) := by
  intro n
  induction n with
  | zero =>
    intro st queue i counter hm hnd hi hst
    have hguard : ¬ (i < queue.length ∧ counter < 2 * queue.length) := by
      omega
    rw [aromaticRetryLoop, dif_neg hguard]
    exact ⟨Nat.le_max_left _ _, rfl, hnd, hi, hst⟩
  | succ n ih =>
    intro st queue i counter hm hnd hi hst
    rw [aromaticRetryLoop]
    by_cases hguard : i < queue.length ∧ counter < 2 * queue.length
    · rw [dif_pos hguard]
      simp only []
      have hringmem : queue.get ⟨i, hguard.1⟩ ∈ queue :=
        List.get_mem queue i hguard.1
      have hndring : (queue.get ⟨i, hguard.1⟩).Nodup := hnd _ hringmem
      by_cases hv :
          validate (savePromote (queue.get ⟨i, hguard.1⟩) st).2 = true
      · rw [if_pos hv]
        have htake : queue.take (i + 1) =
            queue.take i ++ [queue.get ⟨i, hguard.1⟩] := by
          rw [List.get_eq_getElem]
          rw [List.take_concat_get']
        have hstep : (savePromote (queue.get ⟨i, hguard.1⟩) st).2 =
            promoteRings (queue.take (i + 1)) st0 := by
          rw [savePromote_snd, hst, htake,
            promoteRings_append_singleton]
        have hrec := ih _ queue (i + 1) (counter + 1) (by omega) hnd
          (by omega) hstep
        have hmax : (counter + 1) ⊔ (2 * queue.length) =
            2 * queue.length := Nat.max_eq_right (by omega)
        refine ⟨le_trans (hrec.1.trans_eq hmax) (Nat.le_max_right _ _),
          hrec.2.1, hrec.2.2.1, hrec.2.2.2.1, hrec.2.2.2.2⟩
      · rw [if_neg hv]
        have hrestore :
            restoreOrders (queue.get ⟨i, hguard.1⟩)
              (savePromote (queue.get ⟨i, hguard.1⟩) st).1
              (savePromote (queue.get ⟨i, hguard.1⟩) st).2 = st :=
          savePromote_restore st _ hndring
        rw [hrestore]
        have hlen2 : (queue.eraseIdx i ++
            [queue.get ⟨i, hguard.1⟩]).length = queue.length := by
          rw [List.length_append, List.length_eraseIdx]
          simp [hguard.1]
          omega
        have hnd2 : ∀ ring ∈ queue.eraseIdx i ++
            [queue.get ⟨i, hguard.1⟩], ring.Nodup := by
          intro ring hring
          rcases List.mem_append.mp hring with h1 | h1
          · exact hnd _ (List.mem_of_mem_eraseIdx h1)
          · rw [List.mem_singleton.mp h1]
            exact hndring
        have htakei : (queue.eraseIdx i ++
            [queue.get ⟨i, hguard.1⟩]).take i = queue.take i := by
          rw [List.eraseIdx_eq_take_drop_succ, List.append_assoc]
          rw [List.take_append_of_le_length]
          · rw [List.take_take]
            simp [Nat.min_self]
          · rw [List.length_take]
            omega
        have hrec := ih st (queue.eraseIdx i ++
          [queue.get ⟨i, hguard.1⟩]) i (counter + 1)
          (by rw [hlen2]; omega) hnd2 (by rw [hlen2]; omega)
          (by rw [htakei]; exact hst)
        rw [hlen2] at hrec
        have hmax : (counter + 1) ⊔ (2 * queue.length) =
            2 * queue.length := Nat.max_eq_right (by omega)
        refine ⟨le_trans (hrec.1.trans_eq hmax) (Nat.le_max_right _ _),
          hrec.2.1, hrec.2.2.1, hrec.2.2.2.1, hrec.2.2.2.2⟩
    · rw [dif_neg hguard]
      exact ⟨Nat.le_max_left _ _, rfl, hnd, hi, hst⟩

/-- Claim C8: starting from a candidate whose all-at-once promotion
failed revalidation, the ring-by-ring retry loop performs at most
twice-the-ring-count promotion attempts (and hence terminates); a failed
attempt is undone exactly, so the final graph is the input graph with
precisely the accepted rings promoted; every bond of a ring that never
revalidated keeps its original order unless an accepted ring shares it;
and if no ring at all was promoted the candidate is discarded (`none`)
by `generateAromaticResonanceStructures`'s per-candidate block. -/
theorem claim8_aromatic_retry_loop (validate : MolState → Bool)
    (st : MolState) (queue : List (List Nat))
    (hnd : ∀ ring ∈ queue, ring.Nodup) (hne : queue ≠ [])
    (hfail : validate (promoteRings queue st) = false) :
    ((aromaticRetryLoop validate st queue 0 0).2.2.2 ≤
      2 * queue.length) ∧
    ((aromaticRetryLoop validate st queue 0 0).1 =
      promoteRings ((aromaticRetryLoop validate st queue 0 0).2.1.take
        (aromaticRetryLoop validate st queue 0 0).2.2.1) st) ∧
    (∀ ring ∈ (aromaticRetryLoop validate st queue 0 0).2.1.drop
        (aromaticRetryLoop validate st queue 0 0).2.2.1,
      ∀ j ∈ ring,
      (∀ ring2 ∈ (aromaticRetryLoop validate st queue 0 0).2.1.take
        (aromaticRetryLoop validate st queue 0 0).2.2.1, j ∉ ring2) →
      (aromaticRetryLoop validate st queue 0 0).1.order.getD j 0 =
        st.order.getD j 0) ∧
    (tryAromatizeCandidate validate st queue =
      if (aromaticRetryLoop validate st queue 0 0).2.2.1 = 0 then none
      else some (aromaticRetryLoop validate st queue 0 0).1) := by
  have hspec := aromaticRetryLoop_spec validate st (2 * queue.length) st
    queue 0 0 (by omega) hnd (by omega) (by simp [promoteRings])
  refine ⟨by have := hspec.1; omega, hspec.2.2.2.2, ?_, ?_⟩
  · intro ring hring j hj hnot
    rw [hspec.2.2.2.2, promoteRings_getD]
    have : ¬ ∃ ring2 ∈ (aromaticRetryLoop validate st queue 0 0).2.1.take
        (aromaticRetryLoop validate st queue 0 0).2.2.1, j ∈ ring2 := by
      intro ⟨ring2, hring2, hjring2⟩
      exact hnot ring2 hring2 hjring2
    simp [this]
  · unfold tryAromatizeCandidate
    rw [if_neg (by simp [hne])]
    simp only []
    rw [if_neg (by rw [hfail]; decide)]
    rw [restoreAll_promote]

/-- Witness for C8: a single one-bond ring whose promotion never
revalidates; the loop stops after two attempts, the bond keeps its
original single order, and the candidate is discarded. -/
theorem claim8_aromatic_retry_loop_witness :
    (∀ ring ∈ ([[0]] : List (List Nat)), ring.Nodup) ∧
    ([[0]] : List (List Nat)) ≠ [] ∧
    ((fun (_ : MolState) => false)
      (promoteRings [[0]] ⟨[], [], [], [2]⟩) = false) ∧
    ((aromaticRetryLoop (fun _ => false) ⟨[], [], [], [2]⟩ [[0]] 0
      0).2.2.2 ≤ 2 * ([[0]] : List (List Nat)).length) ∧
    ((aromaticRetryLoop (fun _ => false) ⟨[], [], [], [2]⟩ [[0]] 0 0).1 =
      promoteRings
        ((aromaticRetryLoop (fun _ => false) ⟨[], [], [], [2]⟩ [[0]] 0
          0).2.1.take
          (aromaticRetryLoop (fun _ => false) ⟨[], [], [], [2]⟩ [[0]] 0
            0).2.2.1) ⟨[], [], [], [2]⟩) ∧
    (∀ ring ∈ (aromaticRetryLoop (fun _ => false) ⟨[], [], [], [2]⟩
        [[0]] 0 0).2.1.drop
        (aromaticRetryLoop (fun _ => false) ⟨[], [], [], [2]⟩ [[0]] 0
          0).2.2.1,
      ∀ j ∈ ring,
      (∀ ring2 ∈ (aromaticRetryLoop (fun _ => false) ⟨[], [], [], [2]⟩
        [[0]] 0 0).2.1.take
        (aromaticRetryLoop (fun _ => false) ⟨[], [], [], [2]⟩ [[0]] 0
          0).2.2.1, j ∉ ring2) →
      (aromaticRetryLoop (fun _ => false) ⟨[], [], [], [2]⟩ [[0]] 0
        0).1.order.getD j 0 =
        (⟨[], [], [], [2]⟩ : MolState).order.getD j 0) ∧
    (tryAromatizeCandidate (fun _ => false) ⟨[], [], [], [2]⟩ [[0]] =
      if (aromaticRetryLoop (fun _ => false) ⟨[], [], [], [2]⟩ [[0]] 0
        0).2.2.1 = 0 then none
      else some (aromaticRetryLoop (fun _ => false) ⟨[], [], [], [2]⟩
        [[0]] 0 0).1) := by
  have hmain := claim8_aromatic_retry_loop (fun _ => false)
    ⟨[], [], [], [2]⟩ [[0]] (by decide) (by decide) rfl
  exact ⟨by decide, by decide, rfl, hmain.1, hmain.2.1, hmain.2.2.1,
    hmain.2.2.2⟩

/-!
Claims C5, C6 and C10: the Clar optimizer's recursion.
-/

/-- Every solution in a successful `_clarOptimization` result passed the
integrality check at the level that produced it: all its entries are `0`
or `1`. -/
theorem clarOptimization_solutions_01 (rings : List (List Nat))
    (bl : List Nat) (solve : List ClarConstraint → Int × ℚ × List ℚ)
    (mol : MolState) : ∀ (fuel : Nat) (cs : Option (List ClarConstraint))
    (M : Option ℚ) (entries : List ClarSolution),
    clarOptimization rings bl solve mol fuel cs M = Except.ok entries →
    ∀ e ∈ entries, ∀ x ∈ e.solution, x = 1 ∨ x = 0 := by
  intro fuel
  induction fuel with
  | zero =>
    intro cs M entries h
    exact absurd h (by rw [clarOptimization]; intro hh; cases hh)
  | succ n ih =>
    intro cs M entries h
    rw [clarOptimization] at h
    by_cases hempty : rings.isEmpty = true
    · rw [if_pos hempty] at h
      injection h with h2
      subst h2
      intro e he
      cases he
    · rw [if_neg hempty] at h
      simp only [] at h
      by_cases hstatus : (solve (cs.getD [])).1 ≠ 0
      · rw [if_pos hstatus] at h
        cases h
      · rw [if_neg hstatus] at h
        by_cases hobj : (solve (cs.getD [])).2.1 = 0
        · rw [if_pos hobj] at h
          injection h with h2
          subst h2
          intro e he
          cases he
        · rw [if_neg hobj] at h
          by_cases hmax : ∃ m, M = some m ∧ (solve (cs.getD [])).2.1 < m
          · rw [if_pos hmax] at h
            cases h
          · rw [if_neg hmax] at h
            by_cases hint : ∃ x ∈ (solve (cs.getD [])).2.2,
                x ≠ 1 ∧ x ≠ 0
            · rw [if_pos hint] at h
              cases h
            · rw [if_neg hint] at h
              injection h with h2
              subst h2
              intro e he
              rcases List.mem_append.mp he with hin | hown
              · rcases hrec : clarOptimization rings bl solve mol n
                  (some (cs.getD [] ++
                    [((solve (cs.getD [])).2.2.take rings.length ++
                        List.replicate bl.length (0 : ℚ),
                      ((solve (cs.getD [])).2.2.take
                        rings.length).foldl (fun a b => a + b) 0 - 1)]))
                  (some (M.getD (solve (cs.getD [])).2.1)) with hv | xs
                · rw [hrec] at hin
                  cases hin
                · rw [hrec] at hin
                  exact ih _ _ xs hrec e hin
              · rw [List.mem_singleton.mp hown]
                intro x hx
                by_contra hbad
                push_neg at hbad
                exact hint ⟨x, hx, hbad.1, hbad.2⟩

theorem applyBondAssignment_ok (pairs : List (Nat × ℚ)) :
    ∀ st : MolState, (∀ p ∈ pairs, p.2 = 1 ∨ p.2 = 0) →
    ∃ st2, applyBondAssignment pairs st = Except.ok st2 := by
  induction pairs with
  | nil => intro st _; exact ⟨st, rfl⟩
  | cons p rest ih =>
    intro st hp
    rcases hp p (List.mem_cons_self p rest) with h1 | h0
    · obtain ⟨st2, hst2⟩ := ih (setOrder st p.1 4)
        (fun q hq => hp q (List.mem_cons_of_mem p hq))
      refine ⟨st2, ?_⟩
      obtain ⟨j, xv⟩ := p
      simp only at h1 hst2
      subst h1
      simp only [applyBondAssignment]
      simpa using hst2
    · obtain ⟨st2, hst2⟩ := ih (setOrder st p.1 2)
        (fun q hq => hp q (List.mem_cons_of_mem p hq))
      refine ⟨st2, ?_⟩
      obtain ⟨j, xv⟩ := p
      simp only at h0 hst2
      subst h0
      simp only [applyBondAssignment]
      simpa using hst2

theorem processClarSolution_ok (ends : BondEnds)
    (validate : MolState → Bool) (e : ClarSolution)
    (h01 : ∀ x ∈ e.solution, x = 1 ∨ x = 0) :
    ∃ v, processClarSolution ends validate e = Except.ok v := by
  have hx : ∀ p ∈ e.bonds.zip (e.solution.drop e.aromaticRings.length),
      p.2 = 1 ∨ p.2 = 0 := by
    intro p hp
    have := (List.of_mem_zip hp).2
    exact h01 p.2 (List.mem_of_mem_drop this)
  obtain ⟨st2, hst2⟩ := applyBondAssignment_ok _ e.molecule hx
  simp only [processClarSolution]
  rw [hst2]
  exact ⟨_, rfl⟩

theorem collectClarStructures_ok (ends : BondEnds)
    (validate : MolState → Bool) :
    ∀ (entries : List ClarSolution) (acc : List MolState),
    (∀ e ∈ entries, ∀ x ∈ e.solution, x = 1 ∨ x = 0) →
    ∃ lst, collectClarStructures ends validate entries acc =
      Except.ok lst := by
  intro entries
  induction entries with
  | nil => intro acc _; exact ⟨acc, rfl⟩
  | cons e rest ih =>
    intro acc h01
    obtain ⟨v, hv⟩ := processClarSolution_ok ends validate e
      (h01 e (List.mem_cons_self e rest))
    have hrest := fun q hq => h01 q (List.mem_cons_of_mem e hq)
    cases v with
    | none =>
      obtain ⟨lst, hlst⟩ := ih acc hrest
      refine ⟨lst, ?_⟩
      unfold collectClarStructures
      rw [hv]
      exact hlst
    | some stx =>
      obtain ⟨lst, hlst⟩ := ih (acc ++ [stx]) hrest
      refine ⟨lst, ?_⟩
      unfold collectClarStructures
      rw [hv]
      exact hlst

/-- Claim C10: `generateClarStructures` never raises the `ValueError`
for an unaccepted bond value: every solution handed over by a successful
`_clarOptimization` call has already passed the non-integer check, so
the `else` branch of the bond-assignment loop is unreachable and the
function always returns a list. -/
theorem claim10_clar_value_error_unreachable (molIsCyclic : Bool)
    (rings : List (List Nat)) (bl : List Nat)
    (solve : List ClarConstraint → Int × ℚ × List ℚ) (ends : BondEnds)
    (validate : MolState → Bool) (mol : MolState) (fuel : Nat) :
    ∃ lst, generateClarStructures molIsCyclic rings bl solve ends
      validate mol fuel = Except.ok lst := by
  unfold generateClarStructures
  by_cases hcyc : molIsCyclic
  · rw [if_neg (by simpa using hcyc)]
    rcases hopt : clarOptimization rings bl solve mol fuel none none with
      hv | output
    · exact ⟨[], rfl⟩
    · exact collectClarStructures_ok ends validate output []
        (clarOptimization_solutions_01 rings bl solve mol fuel none none
          output hopt)
  · rw [if_pos (by simpa using hcyc)]
    exact ⟨[], rfl⟩

/-- One successful `_clarOptimization` level whose recursive call raises
`ILPSolutionError` catches the error, substitutes an empty inner
solution list, and still returns its own accumulated solution. -/
theorem clarOptimization_step (rings : List (List Nat)) (bl : List Nat)
    (solve : List ClarConstraint → Int × ℚ × List ℚ) (mol : MolState)
    (fuel : Nat) (cs : Option (List ClarConstraint)) (M : Option ℚ)
    (hne : rings.isEmpty = false)
    (hstatus : (solve (cs.getD [])).1 = 0)
    (hobj0 : ¬ (solve (cs.getD [])).2.1 = 0)
    (hmax : ¬ ∃ m, M = some m ∧ (solve (cs.getD [])).2.1 < m)
    (hint : ¬ ∃ x ∈ (solve (cs.getD [])).2.2, x ≠ 1 ∧ x ≠ 0)
    (hinner : clarOptimization rings bl solve mol fuel
      (some (cs.getD [] ++
        [((solve (cs.getD [])).2.2.take rings.length ++
            List.replicate bl.length (0 : ℚ),
          ((solve (cs.getD [])).2.2.take rings.length).foldl
            (fun a b => a + b) 0 - 1)]))
      (some (M.getD (solve (cs.getD [])).2.1)) = Except.error ()) :
    clarOptimization rings bl solve mol (fuel + 1) cs M =
      Except.ok [⟨mol, rings, bl, (solve (cs.getD [])).2.2⟩] := by
  rw [clarOptimization]
  rw [if_neg (by rw [hne]; intro hh; cases hh)]
  simp only []
  rw [if_neg (by simp [hstatus])]
  rw [if_neg hobj0]
  rw [if_neg hmax]
  rw [if_neg hint]
  rw [hinner]
  rfl

/-- Solutions of a `_clarOptimization` call whose required-optimal bound
is already fixed at `M` all have sextet count exactly `M`, provided the
solver reports the true objective of each solution and never exceeds
`M`. -/
theorem clarOptimization_entries_eq_max (rings : List (List Nat))
    (bl : List Nat) (solve : List ClarConstraint → Int × ℚ × List ℚ)
    (mol : MolState) (M : ℚ)
    (hobj : ∀ cs2, (solve cs2).2.1 =
      sextetCount rings.length (solve cs2).2.2)
    (hbound : ∀ cs2, (solve cs2).2.1 ≤ M) :
    ∀ (fuel : Nat) (cs : Option (List ClarConstraint))
    (entries : List ClarSolution),
    clarOptimization rings bl solve mol fuel cs (some M) =
      Except.ok entries →
    ∀ e ∈ entries, sextetCount rings.length e.solution = M := by
  intro fuel
  induction fuel with
  | zero =>
    intro cs entries h
    exact absurd h (by rw [clarOptimization]; intro hh; cases hh)
  | succ n ih =>
    intro cs entries h
    rw [clarOptimization] at h
    by_cases hempty : rings.isEmpty = true
    · rw [if_pos hempty] at h
      injection h with h2
      subst h2
      intro e he
      cases he
    · rw [if_neg hempty] at h
      simp only [] at h
      by_cases hstatus : (solve (cs.getD [])).1 ≠ 0
      · rw [if_pos hstatus] at h
        cases h
      · rw [if_neg hstatus] at h
        by_cases hobj0 : (solve (cs.getD [])).2.1 = 0
        · rw [if_pos hobj0] at h
          injection h with h2
          subst h2
          intro e he
          cases he
        · rw [if_neg hobj0] at h
          by_cases hmax : ∃ m, (some M : Option ℚ) = some m ∧
              (solve (cs.getD [])).2.1 < m
          · rw [if_pos hmax] at h
            cases h
          · rw [if_neg hmax] at h
            by_cases hint : ∃ x ∈ (solve (cs.getD [])).2.2,
                x ≠ 1 ∧ x ≠ 0
            · rw [if_pos hint] at h
              cases h
            · rw [if_neg hint] at h
              injection h with h2
              subst h2
              have hMv : (solve (cs.getD [])).2.1 = M := by
                have h1 : ¬ (solve (cs.getD [])).2.1 < M := by
                  intro hlt
                  exact hmax ⟨M, rfl, hlt⟩
                have h2 := hbound (cs.getD [])
                exact le_antisymm h2 (not_lt.mp h1)
              intro e he
              rcases List.mem_append.mp he with hin | hown
              · rcases hrec : clarOptimization rings bl solve mol n
                  (some (cs.getD [] ++
                    [((solve (cs.getD [])).2.2.take rings.length ++
                        List.replicate bl.length (0 : ℚ),
                      ((solve (cs.getD [])).2.2.take
                        rings.length).foldl (fun a b => a + b) 0 - 1)]))
                  (some ((some M : Option ℚ).getD
                    (solve (cs.getD [])).2.1)) with hv | xs
                · rw [hrec] at hin
                  cases hin
                · rw [hrec] at hin
                  have : (some M : Option ℚ).getD
                      (solve (cs.getD [])).2.1 = M := rfl
                  rw [this] at hrec
                  exact ih _ xs hrec e hin
              · rw [List.mem_singleton.mp hown]
                rw [← hobj (cs.getD [])]
                exact hMv

/-- Claim C5: every solution returned by the Clar optimizer achieves
exactly the sextet count of the first (outermost) solution found: the
bound `maxNum` set by the first solve is carried into every recursive
re-solve and any recursive solution with a strictly smaller objective is
rejected, so — with a solver that reports the true objective of the
solution it returns and whose objective never improves when cutting
constraints are added — no returned structure has fewer (or more)
sextets than the first solution. -/
theorem claim5_clar_solutions_share_max_sextets
    (rings : List (List Nat)) (bl : List Nat)
    (solve : List ClarConstraint → Int × ℚ × List ℚ) (mol : MolState)
    (fuel : Nat) (entries : List ClarSolution)
    (hobj : ∀ cs2, (solve cs2).2.1 =
      sextetCount rings.length (solve cs2).2.2)
    (hmono : ∀ cs2, (solve cs2).2.1 ≤ (solve []).2.1)
    (hrun : clarOptimization rings bl solve mol fuel none none =
      Except.ok entries) :
    ∀ e ∈ entries, sextetCount rings.length e.solution =
      (solve []).2.1 := by
  cases fuel with
  | zero =>
    exact absurd hrun (by rw [clarOptimization]; intro hh; cases hh)
  | succ n =>
    rw [clarOptimization] at hrun
    by_cases hempty : rings.isEmpty = true
    · rw [if_pos hempty] at hrun
      injection hrun with h2
      subst h2
      intro e he
      cases he
    · rw [if_neg hempty] at hrun
      simp only [] at hrun
      by_cases hstatus : (solve ((none : Option (List ClarConstraint)).getD
          [])).1 ≠ 0
      · rw [if_pos hstatus] at hrun
        cases hrun
      · rw [if_neg hstatus] at hrun
        by_cases hobj0 : (solve ((none : Option
            (List ClarConstraint)).getD [])).2.1 = 0
        · rw [if_pos hobj0] at hrun
          injection hrun with h2
          subst h2
          intro e he
          cases he
        · rw [if_neg hobj0] at hrun
          rw [if_neg (by
            intro ⟨m, hm, _⟩
            cases hm)] at hrun
          by_cases hint : ∃ x ∈ (solve ((none : Option
              (List ClarConstraint)).getD [])).2.2, x ≠ 1 ∧ x ≠ 0
          · rw [if_pos hint] at hrun
            cases hrun
          · rw [if_neg hint] at hrun
            injection hrun with h2
            subst h2
            intro e he
            rcases List.mem_append.mp he with hin | hown
            · rcases hrec : clarOptimization rings bl solve mol n
                (some ((none : Option (List ClarConstraint)).getD [] ++
                  [((solve ((none : Option
                      (List ClarConstraint)).getD [])).2.2.take
                      rings.length ++
                      List.replicate bl.length (0 : ℚ),
                    ((solve ((none : Option
                      (List ClarConstraint)).getD [])).2.2.take
                      rings.length).foldl (fun a b => a + b) 0 - 1)]))
                (some ((none : Option ℚ).getD (solve ((none : Option
                  (List ClarConstraint)).getD [])).2.1)) with hv | xs
              · rw [hrec] at hin
                cases hin
              · rw [hrec] at hin
                exact clarOptimization_entries_eq_max rings bl solve mol
                  ((solve []).2.1) hobj hmono n _ xs hrec e hin
            · rw [List.mem_singleton.mp hown]
              exact (hobj []).symm

/-- Witness for C5: a one-ring model with a constant honest solver; the
single returned solution has sextet count equal to the first objective. -/
theorem claim5_clar_solutions_share_max_sextets_witness :
    (∀ cs2, ((fun (_ : List ClarConstraint) =>
      ((0 : Int), (1 : ℚ), [(1 : ℚ)])) cs2).2.1 =
      sextetCount ([[0]] : List (List Nat)).length
        ((fun (_ : List ClarConstraint) =>
          ((0 : Int), (1 : ℚ), [(1 : ℚ)])) cs2).2.2) ∧
    (∀ cs2, ((fun (_ : List ClarConstraint) =>
      ((0 : Int), (1 : ℚ), [(1 : ℚ)])) cs2).2.1 ≤
      ((fun (_ : List ClarConstraint) =>
        ((0 : Int), (1 : ℚ), [(1 : ℚ)])) []).2.1) ∧
    (clarOptimization [[0]] [] (fun _ => ((0 : Int), (1 : ℚ), [(1 : ℚ)]))
      ⟨[], [], [], []⟩ 1 none none =
      Except.ok [⟨⟨[], [], [], []⟩, [[0]], [], [(1 : ℚ)]⟩]) ∧
    (∀ e ∈ ([⟨⟨[], [], [], []⟩, [[0]], [], [(1 : ℚ)]⟩] :
        List ClarSolution),
      sextetCount ([[0]] : List (List Nat)).length e.solution =
        ((fun (_ : List ClarConstraint) =>
          ((0 : Int), (1 : ℚ), [(1 : ℚ)])) []).2.1) := by
  have hobj : ∀ cs2, ((fun (_ : List ClarConstraint) =>
      ((0 : Int), (1 : ℚ), [(1 : ℚ)])) cs2).2.1 =
      sextetCount ([[0]] : List (List Nat)).length
        ((fun (_ : List ClarConstraint) =>
          ((0 : Int), (1 : ℚ), [(1 : ℚ)])) cs2).2.2 := by
    intro cs2
    simp [sextetCount]
  have hmono : ∀ cs2, ((fun (_ : List ClarConstraint) =>
      ((0 : Int), (1 : ℚ), [(1 : ℚ)])) cs2).2.1 ≤
      ((fun (_ : List ClarConstraint) =>
        ((0 : Int), (1 : ℚ), [(1 : ℚ)])) []).2.1 := fun _ => le_refl _
  have hrun : clarOptimization [[0]] []
      (fun _ => ((0 : Int), (1 : ℚ), [(1 : ℚ)])) ⟨[], [], [], []⟩ 1 none
      none = Except.ok [⟨⟨[], [], [], []⟩, [[0]], [], [(1 : ℚ)]⟩] := by
    exact clarOptimization_step [[0]] []
      (fun _ => ((0 : Int), (1 : ℚ), [(1 : ℚ)])) ⟨[], [], [], []⟩ 0 none
      none rfl rfl (by norm_num)
      (by rintro ⟨m, hm, _⟩; cases hm)
      (by
        rintro ⟨x, hx, h1, h0⟩
        rw [List.mem_singleton.mp hx] at h1
        exact h1 rfl)
      rfl
  exact ⟨hobj, hmono, hrun,
    claim5_clar_solutions_share_max_sextets [[0]] []
      (fun _ => ((0 : Int), (1 : ℚ), [(1 : ℚ)])) ⟨[], [], [], []⟩ 1 _
      hobj hmono hrun⟩

/-- Claim C6: an `ILPSolutionError` escaping the outermost
`_clarOptimization` call makes `generateClarStructures` return the empty
list, while the same failure raised inside a recursive call aborts only
that branch — the recursion catches it, substitutes an empty inner
solution list, and still returns the solution accumulated at that
level. -/
theorem claim6_clar_failure_scoping (rings : List (List Nat))
    (bl : List Nat) (solve : List ClarConstraint → Int × ℚ × List ℚ)
    (mol : MolState) (fuel : Nat) (cs : Option (List ClarConstraint))
    (M : Option ℚ) (cyc2 : Bool) (rings2 : List (List Nat))
    (bl2 : List Nat) (solve2 : List ClarConstraint → Int × ℚ × List ℚ)
    (ends2 : BondEnds) (validate2 : MolState → Bool) (mol2 : MolState)
    (fuel2 : Nat)
    (hne : rings.isEmpty = false)
    (hstatus : (solve (cs.getD [])).1 = 0)
    (hobj0 : ¬ (solve (cs.getD [])).2.1 = 0)
    (hmax : ¬ ∃ m, M = some m ∧ (solve (cs.getD [])).2.1 < m)
    (hint : ¬ ∃ x ∈ (solve (cs.getD [])).2.2, x ≠ 1 ∧ x ≠ 0)
    (hinner : clarOptimization rings bl solve mol fuel
      (some (cs.getD [] ++
        [((solve (cs.getD [])).2.2.take rings.length ++
            List.replicate bl.length (0 : ℚ),
          ((solve (cs.getD [])).2.2.take rings.length).foldl
            (fun a b => a + b) 0 - 1)]))
      (some (M.getD (solve (cs.getD [])).2.1)) = Except.error ())
    (herr : clarOptimization rings2 bl2 solve2 mol2 fuel2 none none =
      Except.error ()) :
    clarOptimization rings bl solve mol (fuel + 1) cs M =
      Except.ok [⟨mol, rings, bl, (solve (cs.getD [])).2.2⟩] ∧
    generateClarStructures cyc2 rings2 bl2 solve2 ends2 validate2 mol2
      fuel2 = Except.ok [] := by
  constructor
  · exact clarOptimization_step rings bl solve mol fuel cs M hne hstatus
      hobj0 hmax hint hinner
  · unfold generateClarStructures
    by_cases hcyc : cyc2
    · rw [if_neg (by simpa using hcyc)]
      rw [herr]
    · rw [if_pos (by simpa using hcyc)]

/-- Witness for C6: the one-ring constant solver with exhausted inner
fuel for the branch part, and a failing-status solver for the outermost
part. -/
theorem claim6_clar_failure_scoping_witness :
    (([[0]] : List (List Nat)).isEmpty = false) ∧
    (((fun (_ : List ClarConstraint) =>
      ((0 : Int), (1 : ℚ), [(1 : ℚ)]))
      ((none : Option (List ClarConstraint)).getD [])).1 = 0) ∧
    (clarOptimization [[0]] []
      (fun _ => ((2 : Int), (0 : ℚ), ([] : List ℚ))) ⟨[], [], [], []⟩ 0
      none none = Except.error ()) ∧
    (clarOptimization [[0]] []
      (fun _ => ((0 : Int), (1 : ℚ), [(1 : ℚ)])) ⟨[], [], [], []⟩ (0 + 1)
      none none =
      Except.ok [⟨⟨[], [], [], []⟩, [[0]], [], [(1 : ℚ)]⟩]) ∧
    (generateClarStructures true [[0]] []
      (fun _ => ((2 : Int), (0 : ℚ), ([] : List ℚ))) [] (fun _ => true)
      ⟨[], [], [], []⟩ 0 = Except.ok []) := by
  have hmain := claim6_clar_failure_scoping [[0]] []
    (fun _ => ((0 : Int), (1 : ℚ), [(1 : ℚ)])) ⟨[], [], [], []⟩ 0 none
    none true [[0]] [] (fun _ => ((2 : Int), (0 : ℚ), ([] : List ℚ)))
    [] (fun _ => true) ⟨[], [], [], []⟩ 0 rfl rfl (by norm_num)
    (by rintro ⟨m, hm, _⟩; cases hm)
    (by
      rintro ⟨x, hx, h1, h0⟩
      rw [List.mem_singleton.mp hx] at h1
      exact h1 rfl)
    rfl rfl
  exact ⟨rfl, rfl, rfl, hmain.1, hmain.2⟩

end Resonance
